import Mathlib

/-!
Verification of the hybrid LRU/TTL cache (`src/index.ts`).

The development shallowly embeds the TypeScript source:

* `MinHeap` (source lines 19-122) becomes pure functions over `List HEntry`,
  where an `HEntry` is the pair of a node's key and its `expiresAt` timestamp.
  The source's `node.heapIndex` field always equals the node's position in the
  backing array (`swap`, `insert`, `remove`, `extractMin` all maintain this),
  so `MinHeap.remove` is embedded as removal at an explicit index
  (`MinHeap.removeAt`), and the cache layer computes that index as the
  position of the node's key in the heap array.
* The `while` loops (`bubbleUp`, `bubbleDown`, the `cleanExpired` loop) are
  embedded structurally with an explicit iteration bound (`fuel`) equal to the
  loop's maximal number of iterations: `bubbleUp` moves strictly toward the
  root, `bubbleDown` strictly away from it, and each `cleanExpired` iteration
  removes one heap element, so the bounds are never reached.
* `LRUCache` (lines 129-385) becomes `CacheState`: the `Map` is an association
  list `entries` (key, value, expiresAt); the intrusive doubly linked recency
  list is represented by the list `order` of keys, head = most recently used
  (for a node linked in the list, the source's pointer-patching `removeFromList`
  removes exactly that node, i.e. erases its key from the sequence);
  `expiryHeap` is the heap above.  The background timer handle is the Boolean
  `cleanupTimer` (`true` iff a timer is currently scheduled); JS numbers that
  may be non-finite are modelled by `JSNum`, and the runtime-untyped `key`
  argument of `set` by `JSVal`.
* `removeFromList` (lines 349-364) is additionally embedded at the pointer
  level (`DLL` section) to settle the claim about unlinking detached entries,
  which is invisible in the key-sequence view.

Clock values (`Date.now()`) are passed explicitly, as the spec's clock-source
interface requires.
-/

namespace HybridLRU

/-- A JavaScript number as far as the source's validation logic observes it:
either a finite (here: integral) value, an infinity, or `NaN`. -/
inductive JSNum where
  | num (v : Int)
  | posInf
  | negInf
  | nan
deriving DecidableEq, Repr

/-- `Number.isFinite`. -/
def JSNum.isFinite : JSNum → Bool
  | .num _ => true
  | _ => false

/-- The JS comparison `x <= 0` (`NaN <= 0` and `Infinity <= 0` are false). -/
def JSNum.leZero : JSNum → Bool
  | .num v => decide (v ≤ 0)
  | .negInf => true
  | _ => false

/-- The runtime value passed as `key` to `set`: a string or anything else
(the source checks `typeof key !== "string"`). -/
inductive JSVal where
  | str (s : String)
  | nonString
deriving DecidableEq, Repr

/-- A heap slot: the node's key together with its `expiresAt` timestamp. -/
abbrev HEntry := String × Int

/-- `heap[i]` (out-of-range reads never occur along the verified paths). -/
def hGet (l : List HEntry) (i : Nat) : HEntry := (l[i]?).getD ("", 0)

/-- `swap(i, j)` (source lines 117-121); the `heapIndex` updates are implicit
in the positional representation. -/
def hSwap (l : List HEntry) (i j : Nat) : List HEntry :=
  (l.set i (hGet l j)).set j (hGet l i)

/-- The index the `bubbleDown` loop body (lines 91-115) picks to swap with:
the smallest of `idx`, `left = 2*idx+1`, `right = 2*idx+2` by `expiresAt`,
with `idx` kept on ties. -/
def bdTarget (l : List HEntry) (idx : Nat) : Nat :=
  let s1 := if 2 * idx + 1 < l.length ∧ (hGet l (2 * idx + 1)).2 < (hGet l idx).2 then
    2 * idx + 1 else idx
  if 2 * idx + 2 < l.length ∧ (hGet l (2 * idx + 2)).2 < (hGet l s1).2 then
    2 * idx + 2 else s1

/-- The `bubbleUp` while-loop (lines 82-89).  `fuel` bounds the number of
iterations; each iteration moves from `idx` to `(idx-1)/2 < idx`, so any
`fuel ≥ idx` is enough and the bound is never hit. -/
def bubbleUpLoop : Nat → List HEntry → Nat → List HEntry
  | _, l, 0 => l
  | 0, l, _ + 1 => l
  | fuel + 1, l, i + 1 =>
    if (hGet l ((i + 1 - 1) / 2)).2 ≤ (hGet l (i + 1)).2 then l
    else bubbleUpLoop fuel (hSwap l (i + 1) ((i + 1 - 1) / 2)) ((i + 1 - 1) / 2)

/-- `bubbleUp(idx)` (lines 82-89). -/
def bubbleUp (l : List HEntry) (idx : Nat) : List HEntry :=
  bubbleUpLoop idx l idx

/-- The `bubbleDown` while-loop (lines 91-115).  Each iteration moves from
`idx` to a child `< l.length`, so `fuel = l.length` is never exhausted. -/
def bubbleDownLoop : Nat → List HEntry → Nat → List HEntry
  | 0, l, _ => l
  | fuel + 1, l, idx =>
    if bdTarget l idx = idx then l
    else bubbleDownLoop fuel (hSwap l idx (bdTarget l idx)) (bdTarget l idx)

/-- `bubbleDown(idx)` (lines 91-115). -/
def bubbleDown (l : List HEntry) (idx : Nat) : List HEntry :=
  bubbleDownLoop l.length l idx

namespace MinHeap

/-- `size()` (lines 26-28). -/
def size (l : List HEntry) : Nat := l.length

/-- `peek()` (lines 30-32): `heap[0]`, `undefined` on an empty heap. -/
def peek (l : List HEntry) : Option HEntry := l.head?

/-- `insert(node)` (lines 34-38): push, record the index, sift up. -/
def insert (l : List HEntry) (e : HEntry) : List HEntry :=
  bubbleUp (l ++ [e]) l.length

/-- `remove(node)` (lines 40-61) at the node's tracked index `idx`.
`idx ≥ length` is the `heapIndex === -1 || idx >= length` early return; a last
slot is popped directly; otherwise swap with the last slot, pop, and sift the
displaced element both ways (after the pop, `idx < length` always holds, so
the source's guard on line 57 is the taken branch). -/
def removeAt (l : List HEntry) (idx : Nat) : List HEntry :=
  if idx ≥ l.length then l
  else if idx = l.length - 1 then l.dropLast
  else bubbleDown (bubbleUp ((hSwap l idx (l.length - 1)).dropLast) idx) idx

/-- `extractMin()` (lines 63-80): root out, last element to the root, sift
down; the empty and single-element heaps are handled directly. -/
def extractMin (l : List HEntry) : Option HEntry × List HEntry :=
  if l.length = 0 then (none, l)
  else if l.length = 1 then (some (hGet l 0), [])
  else (some (hGet l 0), bubbleDown ((l.dropLast).set 0 (hGet l (l.length - 1))) 0)

end MinHeap

/-- The state of one `LRUCache` instance (fields of lines 130-137).  The map,
list and heap are all views of the same set of nodes; `cleanupTimer = true`
models a non-null `NodeJS.Timeout` handle. -/
structure CacheState (T : Type) where
  maxSize : Nat
  entries : List (String × T × Int)
  order : List String
  heap : List HEntry
  cleanupInterval : JSNum
  cleanupTimer : Bool
  autoCleanup : Bool
deriving Repr

variable {T : Type}

/-- `this.cache.get(key)`: the (value, expiresAt) data of the node for `key`. -/
def mapGet (m : List (String × T × Int)) (k : String) : Option (T × Int) :=
  (m.find? (fun p => p.1 = k)).map (fun p => p.2)

/-- In-place update of the node for `key` (`node.value = value` and the later
`node.expiresAt = expiresAt` of lines 193-197). -/
def mapUpdate (m : List (String × T × Int)) (k : String) (v : T) (e : Int) :
    List (String × T × Int) :=
  m.map (fun p => if p.1 = k then (k, v, e) else p)

/-- `this.cache.delete(key)`. -/
def mapDelete (m : List (String × T × Int)) (k : String) : List (String × T × Int) :=
  m.eraseP (fun p => p.1 = k)

/-- The key set (with multiplicity) of the map. -/
def keysOf (m : List (String × T × Int)) : List String := m.map (fun p => p.1)

/-- The key sequence stored in the heap. -/
def heapKeys (l : List HEntry) : List String := l.map (fun p => p.1)

/-- The position of `key`'s node in the heap array — the value the source
tracks as `node.heapIndex` (equal to `l.length`, playing the role of `-1`,
when the node is not in the heap). -/
def heapIdx (l : List HEntry) (k : String) : Nat :=
  l.findIdx (fun p => p.1 = k)

/-- `size()` (lines 366-368). -/
def size (s : CacheState T) : Nat := s.entries.length

/-- `removeNode(node)` (lines 324-328): heap removal at the node's index,
unlink from the recency list, delete from the map. -/
def removeNode (s : CacheState T) (k : String) : CacheState T :=
  { s with heap := MinHeap.removeAt s.heap (heapIdx s.heap k),
           order := s.order.erase k,
           entries := mapDelete s.entries k }

/-- `get(key)` (lines 160-176), with the clock value passed explicitly. -/
def get (s : CacheState T) (k : String) (now : Int) : Option T × CacheState T :=
  match mapGet s.entries k with
  | none => (none, s)
  | some (v, exp) =>
    if now ≥ exp then (none, removeNode s k)
    else (some v, { s with order := k :: s.order.erase k })

/-- One iteration step of the `cleanExpired` loop (lines 232-240): extract the
root, unlink it, delete its key. -/
def cleanStep (s : CacheState T) (k : String) : CacheState T :=
  { s with heap := (MinHeap.extractMin s.heap).2,
           order := s.order.erase k,
           entries := mapDelete s.entries k }

/-- The `cleanExpired` while-loop; each iteration removes one heap element,
so `fuel = heap length` at entry is never exhausted. -/
def cleanLoop : Nat → CacheState T → Int → CacheState T × Nat
  | 0, s, _ => (s, 0)
  | fuel + 1, s, now =>
    match MinHeap.peek s.heap with
    | none => (s, 0)
    | some nd =>
      if nd.2 > now then (s, 0)
      else
        let r := cleanLoop fuel (cleanStep s nd.1) now
        (r.1, r.2 + 1)

/-- `cleanExpired(now)` (lines 228-243). -/
def cleanExpired (s : CacheState T) (now : Int) : CacheState T × Nat :=
  cleanLoop s.heap.length s now

/-- `evict(now)` (lines 295-322).  Both reachable branches — expired root
first (lines 299-307), otherwise closest-to-expiry (lines 313-321) — extract
the heap minimum and remove that node; with an empty heap nothing happens. -/
def evict (s : CacheState T) (now : Int) : CacheState T :=
  match MinHeap.peek s.heap with
  | none => s
  | some nd =>
    if nd.2 ≤ now then cleanStep s nd.1
    else cleanStep s nd.1

/-- The body of `set` after validation (lines 187-217), with the clock value
passed explicitly. -/
def setBody (s : CacheState T) (k : String) (v : T) (ttlMs : Int) (now : Int) :
    CacheState T :=
  let expiresAt := now + ttlMs
  if (mapGet s.entries k).isSome then
    { s with entries := mapUpdate s.entries k v expiresAt,
             heap := MinHeap.insert (MinHeap.removeAt s.heap (heapIdx s.heap k))
               (k, expiresAt),
             order := k :: s.order.erase k }
  else
    let s1 := (cleanExpired s now).1
    let s2 := if s1.entries.length ≥ s1.maxSize then evict s1 now else s1
    { s2 with entries := s2.entries ++ [(k, v, expiresAt)],
              heap := MinHeap.insert s2.heap (k, expiresAt),
              order := k :: s2.order }

/-- `set(key, value, ttlMs)` (lines 178-217) including the two validation
throws, as `Except` over the thrown messages. -/
def setE (s : CacheState T) (key : JSVal) (v : T) (ttlMs : JSNum) (now : Int) :
    Except String (CacheState T) :=
  match key with
  | .nonString => .error "key must be a non-empty string"
  | .str k =>
    if k.length = 0 then .error "key must be a non-empty string"
    else if ¬ ttlMs.isFinite ∨ ttlMs.leZero then
      .error "ttlMs must be a positive finite number"
    else match ttlMs with
      | .num ttl => .ok (setBody s k v ttl now)
      | _ => .ok s

/-- The caller-visible state after `set` under exception semantics: a throw
leaves the state as it was. -/
def setOp (s : CacheState T) (key : JSVal) (v : T) (ttlMs : JSNum) (now : Int) :
    CacheState T :=
  match setE s key v ttlMs now with
  | .ok s' => s'
  | .error _ => s

/-- `delete(key)` (lines 219-226). -/
def delete (s : CacheState T) (k : String) : Bool × CacheState T :=
  match mapGet s.entries k with
  | some _ => (true, removeNode s k)
  | none => (false, s)

/-- `stopBackgroundCleanup()` (lines 287-293): the handle is cleared. -/
def stopBackgroundCleanup (s : CacheState T) : CacheState T :=
  { s with cleanupTimer := false }

/-- `startBackgroundCleanup()` (lines 245-269): schedules the recurring task
unless one is already scheduled. -/
def startBackgroundCleanup (s : CacheState T) : CacheState T :=
  if s.cleanupTimer then s else { s with cleanupTimer := true }

/-- `clear()` (lines 370-379): empty all structures, stop the timer, and
restart it when `autoCleanup` is enabled. -/
def clear (s : CacheState T) : CacheState T :=
  let s1 : CacheState T := { s with entries := [], order := [], heap := [] }
  let s2 := stopBackgroundCleanup s1
  if s2.autoCleanup then startBackgroundCleanup s2 else s2

/-- `destroy()` (lines 381-384). -/
def destroy (s : CacheState T) : CacheState T :=
  clear (stopBackgroundCleanup s)

/-- The constructor options object (lines 124-127). -/
structure Options where
  cleanupInterval : Option JSNum := none
  autoCleanup : Option Bool := none

/-- The JS expression `options.cleanupInterval || 60000`: the default replaces
a missing value and the falsy numbers `0` and `NaN`. -/
def jsNumOr (x : Option JSNum) (d : JSNum) : JSNum :=
  match x with
  | none => d
  | some (.num 0) => d
  | some .nan => d
  | some y => y

/-- The constructor body after validation (lines 144-157); `maxSize` is the
already-floored positive value. -/
def initCache (T : Type) (m : Nat) (opts : Options) : CacheState T :=
  let auto := opts.autoCleanup ≠ some false
  { maxSize := m,
    entries := [],
    order := [],
    heap := [],
    cleanupInterval := jsNumOr opts.cleanupInterval (.num 60000),
    cleanupTimer := auto,
    autoCleanup := auto }

/-- The constructor (lines 139-158): validation `!Number.isFinite(maxSize) ||
maxSize <= 0`, then `Math.floor` (the identity on the integral values `JSNum`
carries). -/
def ctor (T : Type) (maxSize : JSNum) (opts : Options) : Except String (CacheState T) :=
  if ¬ maxSize.isFinite ∨ maxSize.leZero then
    .error "maxSize must be a positive finite number"
  else match maxSize with
    | .num m => .ok (initCache T m.toNat opts)
    | _ => .error "maxSize must be a positive finite number"

/-- A public cache operation together with the clock value `Date.now()`
returns during it. -/
inductive CacheOp (T : Type) where
  | get (k : String) (now : Int)
  | set (key : JSVal) (v : T) (ttlMs : JSNum) (now : Int)
  | del (k : String)
  | clean (now : Int)
  | clear

/-- The state transition of one public operation. -/
def applyOp (s : CacheState T) : CacheOp T → CacheState T
  | .get k now => (get s k now).2
  | .set key v ttlMs now => setOp s key v ttlMs now
  | .del k => (delete s k).2
  | .clean now => (cleanExpired s now).1
  | .clear => clear s

/-- Run a sequence of public operations. -/
def applyOps (s : CacheState T) : List (CacheOp T) → CacheState T
  | [] => s
  | op :: ops => applyOps (applyOp s op) ops

/-- The min-heap ordering invariant of the spec: every non-root slot is `≥`
its parent by `expiresAt`. -/
def IsHeap (l : List HEntry) : Prop :=
  ∀ i, i < l.length → 0 < i → (hGet l ((i - 1) / 2)).2 ≤ (hGet l i).2

/-- Precondition of `bubbleUp l idx`: the heap ordering holds everywhere
except possibly between `idx` and its parent, and the entries below `idx`
are already `≥` the value at `idx`'s parent (so sifting up cannot break the
slots `idx` leaves behind). -/
def UpOK (l : List HEntry) (idx : Nat) : Prop :=
  (∀ i, i < l.length → 0 < i → i ≠ idx → (hGet l ((i - 1) / 2)).2 ≤ (hGet l i).2) ∧
  (0 < idx → ∀ c, c < l.length → 0 < c → (c - 1) / 2 = idx →
    (hGet l ((idx - 1) / 2)).2 ≤ (hGet l c).2)

/-- Precondition of `bubbleDown l idx`: the heap ordering holds everywhere
except possibly between `idx` and its children, and the entries below `idx`
are already `≥` the value at `idx`'s parent. -/
def DownOK (l : List HEntry) (idx : Nat) : Prop :=
  (∀ i, i < l.length → 0 < i → (i - 1) / 2 ≠ idx → (hGet l ((i - 1) / 2)).2 ≤ (hGet l i).2) ∧
  (0 < idx → ∀ c, c < l.length → 0 < c → (c - 1) / 2 = idx →
    (hGet l ((idx - 1) / 2)).2 ≤ (hGet l c).2)

/-- The cross-structure consistency invariant of a cache state:
the recency list holds exactly the map's keys, the heap holds exactly the
map's keys paired with their current `expiresAt`, keys are unique, the heap
is min-ordered, and the size respects the capacity fixed at construction. -/
def Inv (s : CacheState T) : Prop :=
  (keysOf s.entries).Nodup ∧
  s.order.Perm (keysOf s.entries) ∧
  (heapKeys s.heap).Perm (keysOf s.entries) ∧
  (∀ e ∈ s.heap, (mapGet s.entries e.1).map (fun p => p.2) = some e.2) ∧
  IsHeap s.heap ∧
  s.entries.length ≤ s.maxSize ∧
  0 < s.maxSize

instance (l : List HEntry) : Decidable (IsHeap l) := by
  unfold IsHeap
  infer_instance

instance (s : CacheState T) : Decidable (Inv s) := by
  unfold Inv IsHeap
  infer_instance

end HybridLRU

/-! ### Pointer-level model of the recency list

`removeFromList` (source lines 349-364) patches raw `prev`/`next` pointers,
and its behaviour on a node that is *not* linked into the list cannot be seen
in the key-sequence view above; this small model embeds it directly.  Nodes
are named by numeric ids; `prev`/`next` give each node's link fields. -/

namespace HybridLRU.DLL

/-- The pointer state of the recency list: the two anchors plus every node's
link fields. -/
structure LState where
  head : Option Nat
  tail : Option Nat
  prev : Nat → Option Nat
  next : Nat → Option Nat

/-- Update one node's `prev` field. -/
def setPrev (s : LState) (n : Nat) (v : Option Nat) : LState :=
  { s with prev := fun m => if m = n then v else s.prev m }

/-- Update one node's `next` field. -/
def setNext (s : LState) (n : Nat) (v : Option Nat) : LState :=
  { s with next := fun m => if m = n then v else s.next m }

/-- `removeFromList(node)` (lines 349-364), statement by statement:
patch the predecessor's `next` (or `head`), patch the successor's `prev`
(or `tail`), then null the node's own links. -/
def removeFromList (s : LState) (n : Nat) : LState :=
  let s1 := match s.prev n with
    | some pid => setNext s pid (s.next n)
    | none => { s with head := s.next n }
  let s2 := match s1.next n with
    | some nid => setPrev s1 nid (s1.prev n)
    | none => { s1 with tail := s1.prev n }
  setNext (setPrev s2 n none) n none

/-- A one-node list (node `0` linked, every node's fields null). -/
def oneNodeList : LState :=
  { head := some 0, tail := some 0, prev := fun _ => none, next := fun _ => none }

end HybridLRU.DLL

/-! ### Heap lemmas: indexing, permutation, and the ordering invariant -/

namespace HybridLRU

theorem getElem?_set_eq_of_lt {α : Type} (l : List α) (i : Nat) (a : α) (h : i < l.length) :
    (l.set i a)[i]? = some a := by
  rw [List.getElem?_set_self']
  simp [List.getElem?_eq_getElem h]

theorem hGet_eq_getElem {l : List HEntry} {i : Nat} (h : i < l.length) : hGet l i = l[i] := by
  simp [hGet, List.getElem?_eq_getElem h]

theorem hGet_mem {l : List HEntry} {i : Nat} (h : i < l.length) : hGet l i ∈ l := by
  rw [hGet_eq_getElem h]
  exact List.getElem_mem h

theorem hSwap_length (l : List HEntry) (i j : Nat) : (hSwap l i j).length = l.length := by
  simp [hSwap]

theorem hGet_hSwap_fst {l : List HEntry} {i j : Nat} (hi : i < l.length) :
    hGet (hSwap l i j) i = hGet l j := by
  by_cases hij : i = j
  · subst hij
    unfold hSwap hGet
    rw [getElem?_set_eq_of_lt _ _ _ (by simpa using hi)]
    rfl
  · unfold hSwap hGet
    rw [List.getElem?_set_ne (fun h => hij h.symm), getElem?_set_eq_of_lt _ _ _ hi]
    rfl

theorem hGet_hSwap_snd {l : List HEntry} {i j : Nat} (hj : j < l.length) :
    hGet (hSwap l i j) j = hGet l i := by
  unfold hSwap hGet
  rw [getElem?_set_eq_of_lt _ _ _ (by simpa using hj)]
  rfl

theorem hGet_hSwap_other {l : List HEntry} {i j k : Nat} (hki : k ≠ i) (hkj : k ≠ j) :
    hGet (hSwap l i j) k = hGet l k := by
  unfold hSwap hGet
  rw [List.getElem?_set_ne (Ne.symm hkj), List.getElem?_set_ne (Ne.symm hki)]

theorem getD_cons_set_perm :
    ∀ (t : List HEntry) (m : Nat) (a : HEntry), m < t.length →
      (hGet t m :: t.set m a).Perm (a :: t) := by
  intro t
  induction t with
  | nil => intro m a h; simp at h
  | cons b s ih =>
    intro m a h
    cases m with
    | zero =>
      have h0 : hGet (b :: s) 0 = b := by simp [hGet]
      have h1 : (b :: s).set 0 a = a :: s := rfl
      rw [h0, h1]
      exact List.Perm.swap a b s
    | succ m =>
      have hm : m < s.length := by simpa using h
      have h0 : hGet (b :: s) (m + 1) = hGet s m := by simp [hGet]
      have h1 : (b :: s).set (m + 1) a = b :: s.set m a := rfl
      rw [h0, h1]
      exact ((List.Perm.swap b (hGet s m) (s.set m a)).trans
        ((ih m a hm).cons b)).trans (List.Perm.swap a b s)

theorem hSwap_perm {l : List HEntry} {i j : Nat} (hi : i < l.length) (hj : j < l.length)
    (hij : i ≠ j) : (hSwap l i j).Perm l := by
  have h1 : (hGet (l.set i (hGet l j)) j :: hSwap l i j).Perm
      (hGet l i :: l.set i (hGet l j)) :=
    getD_cons_set_perm _ j _ (by simpa using hj)
  have hjj : hGet (l.set i (hGet l j)) j = hGet l j := by
    unfold hGet
    rw [List.getElem?_set_ne hij]
  have h2 : (hGet l i :: l.set i (hGet l j)).Perm (hGet l j :: l) :=
    getD_cons_set_perm l i (hGet l j) hi
  rw [hjj] at h1
  exact (h1.trans h2).cons_inv

theorem bdTarget_ne_spec {l : List HEntry} {idx : Nat} (h : bdTarget l idx ≠ idx) :
    idx < bdTarget l idx ∧ bdTarget l idx < l.length ∧
    (bdTarget l idx - 1) / 2 = idx ∧
    (hGet l (bdTarget l idx)).2 < (hGet l idx).2 ∧
    (∀ c, c < l.length → (c = 2 * idx + 1 ∨ c = 2 * idx + 2) →
      (hGet l (bdTarget l idx)).2 ≤ (hGet l c).2) := by
  unfold bdTarget at h ⊢
  by_cases hL : 2 * idx + 1 < l.length ∧ (hGet l (2 * idx + 1)).2 < (hGet l idx).2
  · rw [if_pos hL] at h ⊢
    by_cases hR : 2 * idx + 2 < l.length ∧ (hGet l (2 * idx + 2)).2 < (hGet l (2 * idx + 1)).2
    · rw [if_pos hR] at h ⊢
      refine ⟨by omega, hR.1, by omega, lt_trans hR.2 hL.2, ?_⟩
      rintro c hc (rfl | rfl)
      · exact le_of_lt hR.2
      · exact le_refl _
    · rw [if_neg hR] at h ⊢
      refine ⟨by omega, hL.1, by omega, hL.2, ?_⟩
      rintro c hc (rfl | rfl)
      · exact le_refl _
      · push_neg at hR
        exact hR hc
  · rw [if_neg hL] at h ⊢
    by_cases hR : 2 * idx + 2 < l.length ∧ (hGet l (2 * idx + 2)).2 < (hGet l idx).2
    · rw [if_pos hR] at h ⊢
      refine ⟨by omega, hR.1, by omega, hR.2, ?_⟩
      rintro c hc (rfl | rfl)
      · push_neg at hL
        exact le_of_lt (lt_of_lt_of_le hR.2 (hL hc))
      · exact le_refl _
    · rw [if_neg hR] at h
      exact absurd rfl h

theorem bdTarget_eq_spec {l : List HEntry} {idx : Nat} (h : bdTarget l idx = idx) :
    ∀ c, c < l.length → (c = 2 * idx + 1 ∨ c = 2 * idx + 2) →
      (hGet l idx).2 ≤ (hGet l c).2 := by
  unfold bdTarget at h
  by_cases hL : 2 * idx + 1 < l.length ∧ (hGet l (2 * idx + 1)).2 < (hGet l idx).2
  · rw [if_pos hL] at h
    by_cases hR : 2 * idx + 2 < l.length ∧ (hGet l (2 * idx + 2)).2 < (hGet l (2 * idx + 1)).2
    · rw [if_pos hR] at h; omega
    · rw [if_neg hR] at h; omega
  · rw [if_neg hL] at h
    by_cases hR : 2 * idx + 2 < l.length ∧ (hGet l (2 * idx + 2)).2 < (hGet l idx).2
    · rw [if_pos hR] at h; omega
    · push_neg at hL hR
      rintro c hc (rfl | rfl)
      · exact hL hc
      · exact hR hc

theorem bdTarget_of_le {l : List HEntry} {idx : Nat}
    (hch : ∀ c, c < l.length → (c = 2 * idx + 1 ∨ c = 2 * idx + 2) →
      (hGet l idx).2 ≤ (hGet l c).2) :
    bdTarget l idx = idx := by
  unfold bdTarget
  have hL : ¬ (2 * idx + 1 < l.length ∧ (hGet l (2 * idx + 1)).2 < (hGet l idx).2) :=
    fun hc => absurd (hch _ hc.1 (Or.inl rfl)) (not_le.mpr hc.2)
  rw [if_neg hL]
  have hR : ¬ (2 * idx + 2 < l.length ∧ (hGet l (2 * idx + 2)).2 < (hGet l idx).2) :=
    fun hc => absurd (hch _ hc.1 (Or.inr rfl)) (not_le.mpr hc.2)
  rw [if_neg hR]

theorem bubbleUpLoop_length :
    ∀ (fuel : Nat) (l : List HEntry) (idx : Nat),
      (bubbleUpLoop fuel l idx).length = l.length := by
  intro fuel
  induction fuel with
  | zero => intro l idx; cases idx <;> rfl
  | succ n ih =>
    intro l idx
    cases idx with
    | zero => rfl
    | succ i =>
      simp only [bubbleUpLoop]
      split
      · rfl
      · rw [ih, hSwap_length]

theorem bubbleDownLoop_length :
    ∀ (fuel : Nat) (l : List HEntry) (idx : Nat),
      (bubbleDownLoop fuel l idx).length = l.length := by
  intro fuel
  induction fuel with
  | zero => intro l idx; rfl
  | succ n ih =>
    intro l idx
    simp only [bubbleDownLoop]
    split
    · rfl
    · rw [ih, hSwap_length]

theorem bubbleUp_length (l : List HEntry) (idx : Nat) :
    (bubbleUp l idx).length = l.length :=
  bubbleUpLoop_length idx l idx

theorem bubbleDown_length (l : List HEntry) (idx : Nat) :
    (bubbleDown l idx).length = l.length :=
  bubbleDownLoop_length l.length l idx

theorem bubbleUpLoop_perm :
    ∀ (fuel : Nat) (l : List HEntry) (idx : Nat), idx < l.length →
      (bubbleUpLoop fuel l idx).Perm l := by
  intro fuel
  induction fuel with
  | zero => intro l idx _; cases idx <;> exact List.Perm.refl l
  | succ n ih =>
    intro l idx hidx
    cases idx with
    | zero => exact List.Perm.refl l
    | succ i =>
      simp only [bubbleUpLoop]
      split
      · exact List.Perm.refl l
      · have hp : (i + 1 - 1) / 2 < l.length := by omega
        have hrec := ih (hSwap l (i + 1) ((i + 1 - 1) / 2)) ((i + 1 - 1) / 2)
          (by rw [hSwap_length]; exact hp)
        exact hrec.trans (hSwap_perm hidx hp (by omega))

theorem bubbleDownLoop_perm :
    ∀ (fuel : Nat) (l : List HEntry) (idx : Nat),
      (bubbleDownLoop fuel l idx).Perm l := by
  intro fuel
  induction fuel with
  | zero => intro l idx; exact List.Perm.refl l
  | succ n ih =>
    intro l idx
    simp only [bubbleDownLoop]
    split
    · exact List.Perm.refl l
    · next h =>
      obtain ⟨h1, h2, -, -, -⟩ := bdTarget_ne_spec h
      exact (ih _ _).trans (hSwap_perm (Nat.lt_trans h1 h2) h2 (Nat.ne_of_lt h1))

theorem bubbleUp_perm {l : List HEntry} {idx : Nat} (h : idx < l.length) :
    (bubbleUp l idx).Perm l :=
  bubbleUpLoop_perm idx l idx h

theorem bubbleDown_perm (l : List HEntry) (idx : Nat) : (bubbleDown l idx).Perm l :=
  bubbleDownLoop_perm l.length l idx

end HybridLRU

namespace HybridLRU

theorem bubbleUpLoop_isHeap :
    ∀ (fuel : Nat) (l : List HEntry) (idx : Nat), idx ≤ fuel →
      (idx < l.length ∨ idx = 0) → UpOK l idx → IsHeap (bubbleUpLoop fuel l idx) := by
  intro fuel
  induction fuel with
  | zero =>
    intro l idx hf hb hok
    have h0 : idx = 0 := Nat.le_zero.mp hf
    subst h0
    simp only [bubbleUpLoop]
    intro i hi hpos
    exact hok.1 i hi hpos (by omega)
  | succ n ih =>
    intro l idx hf hb hok
    cases idx with
    | zero =>
      simp only [bubbleUpLoop]
      intro i hi hpos
      exact hok.1 i hi hpos (by omega)
    | succ i =>
      have hlen : i + 1 < l.length := hb.resolve_right (by omega)
      simp only [bubbleUpLoop]
      split
      · next hle =>
        intro j hj hpos
        by_cases hji : j = i + 1
        · subst hji
          exact hle
        · exact hok.1 j hj hpos hji
      · next hgt =>
        push_neg at hgt
        have hplt : (i + 1 - 1) / 2 < i + 1 := by omega
        have hpl : (i + 1 - 1) / 2 < l.length := lt_trans hplt hlen
        apply ih _ ((i + 1 - 1) / 2) (by omega)
          (Or.inl (by rw [hSwap_length]; exact hpl))
        constructor
        · intro j hj hpos hjp
          rw [hSwap_length] at hj
          by_cases hji : j = i + 1
          · subst hji
            have hq : (i + 1 - 1) / 2 = (i + 1 - 1) / 2 := rfl
            rw [hGet_hSwap_fst hlen, hGet_hSwap_snd hpl]
            exact le_of_lt hgt
          · by_cases hqi : (j - 1) / 2 = i + 1
            · have h2 := hok.2 (by omega) j hj hpos hqi
              rw [hqi, hGet_hSwap_fst hlen, hGet_hSwap_other hji hjp]
              exact h2
            · by_cases hqp : (j - 1) / 2 = (i + 1 - 1) / 2
              · have h1 := hok.1 j hj hpos hji
                rw [hqp] at h1
                rw [hqp, hGet_hSwap_snd hpl, hGet_hSwap_other hji hjp]
                exact le_trans (le_of_lt hgt) h1
              · rw [hGet_hSwap_other hqi hqp, hGet_hSwap_other hji hjp]
                exact hok.1 j hj hpos hji
        · intro hp0 c hc hc0 hcp
          rw [hSwap_length] at hc
          have hpp1 : ((i + 1 - 1) / 2 - 1) / 2 ≠ i + 1 := by omega
          have hpp2 : ((i + 1 - 1) / 2 - 1) / 2 ≠ (i + 1 - 1) / 2 := by omega
          rw [hGet_hSwap_other hpp1 hpp2]
          by_cases hci : c = i + 1
          · subst hci
            rw [hGet_hSwap_fst hlen]
            exact hok.1 _ hpl hp0 (by omega)
          · have hcp' : c ≠ (i + 1 - 1) / 2 := by omega
            rw [hGet_hSwap_other hci hcp']
            have h1 := hok.1 c hc hc0 hci
            rw [hcp] at h1
            exact le_trans (hok.1 _ hpl hp0 (by omega)) h1

theorem bubbleDownLoop_isHeap :
    ∀ (fuel : Nat) (l : List HEntry) (idx : Nat), l.length - idx ≤ fuel →
      DownOK l idx → IsHeap (bubbleDownLoop fuel l idx) := by
  intro fuel
  induction fuel with
  | zero =>
    intro l idx hf hok
    simp only [bubbleDownLoop]
    intro i hi hpos
    exact hok.1 i hi hpos (by omega)
  | succ n ih =>
    intro l idx hf hok
    simp only [bubbleDownLoop]
    split
    · next heq =>
      intro i hi hpos
      by_cases hpi : (i - 1) / 2 = idx
      · have := bdTarget_eq_spec heq i hi (by omega)
        rw [hpi]
        exact this
      · exact hok.1 i hi hpos hpi
    · next hne =>
      obtain ⟨ht1, ht2, ht3, ht4, ht5⟩ := bdTarget_ne_spec hne
      have hil : idx < l.length := lt_trans ht1 ht2
      apply ih _ (bdTarget l idx) (by rw [hSwap_length]; omega)
      constructor
      · intro j hj hpos hpj
        rw [hSwap_length] at hj
        by_cases hjt : j = bdTarget l idx
        · subst hjt
          rw [ht3, hGet_hSwap_fst hil, hGet_hSwap_snd ht2]
          exact le_of_lt ht4
        · by_cases hji : j = idx
          · subst hji
            have hq1 : (j - 1) / 2 ≠ j := by omega
            have hq2 : (j - 1) / 2 ≠ bdTarget l j := by omega
            rw [hGet_hSwap_other hq1 hq2, hGet_hSwap_fst hil]
            exact hok.2 hpos (bdTarget l j) ht2 (by omega) ht3
          · by_cases hpi : (j - 1) / 2 = idx
            · rw [hpi, hGet_hSwap_fst hil, hGet_hSwap_other hji hjt]
              exact ht5 j hj (by omega)
            · rw [hGet_hSwap_other hpi hpj, hGet_hSwap_other hji hjt]
              exact hok.1 j hj hpos hpi
      · intro ht0 c hc hc0 hcp
        rw [hSwap_length] at hc
        have hc1 : c ≠ idx := by omega
        have hc2 : c ≠ bdTarget l idx := by omega
        rw [ht3, hGet_hSwap_fst hil, hGet_hSwap_other hc1 hc2]
        have h1 := hok.1 c hc hc0 (by omega)
        rw [hcp] at h1
        exact h1

theorem bubbleUp_isHeap {l : List HEntry} {idx : Nat} (hb : idx < l.length ∨ idx = 0)
    (h : UpOK l idx) : IsHeap (bubbleUp l idx) :=
  bubbleUpLoop_isHeap idx l idx (le_refl idx) hb h

theorem bubbleDown_isHeap {l : List HEntry} {idx : Nat} (h : DownOK l idx) :
    IsHeap (bubbleDown l idx) :=
  bubbleDownLoop_isHeap l.length l idx (Nat.sub_le _ _) h

theorem bubbleUp_stop {l : List HEntry} {idx : Nat}
    (h : idx = 0 ∨ (hGet l ((idx - 1) / 2)).2 ≤ (hGet l idx).2) : bubbleUp l idx = l := by
  rcases h with h0 | hle
  · subst h0
    rfl
  · cases idx with
    | zero => rfl
    | succ i =>
      unfold bubbleUp
      simp only [bubbleUpLoop]
      rw [if_pos hle]

theorem bubbleDown_of_isHeap {l : List HEntry} (h : IsHeap l) (idx : Nat) :
    bubbleDown l idx = l := by
  have hbd : bdTarget l idx = idx := by
    apply bdTarget_of_le
    intro c hc hor
    have hpos : 0 < c := by omega
    have h1 := h c hc hpos
    rw [show (c - 1) / 2 = idx by omega] at h1
    exact h1
  unfold bubbleDown
  cases hl : l.length with
  | zero => rfl
  | succ n =>
    simp only [bubbleDownLoop]
    rw [if_pos hbd]

theorem isHeap_root_le {l : List HEntry} (h : IsHeap l) :
    ∀ i, i < l.length → (hGet l 0).2 ≤ (hGet l i).2 := by
  intro i
  induction i using Nat.strong_induction_on with
  | _ i ih =>
    intro hi
    rcases Nat.eq_zero_or_pos i with h0 | h0
    · subst h0
      exact le_refl _
    · have hp : (i - 1) / 2 < i := by omega
      exact le_trans (ih _ hp (lt_trans hp hi)) (h i hi h0)

end HybridLRU

namespace HybridLRU

theorem hGet_dropLast {l : List HEntry} {i : Nat} (h : i < l.length - 1) :
    hGet l.dropLast i = hGet l i := by
  unfold hGet
  rw [List.dropLast_eq_take, List.getElem?_take]
  rw [if_pos h]

theorem hGet_append_left {l l₂ : List HEntry} {i : Nat} (h : i < l.length) :
    hGet (l ++ l₂) i = hGet l i := by
  unfold hGet
  rw [List.getElem?_append]
  rw [if_pos h]

theorem hGet_set_ne {l : List HEntry} {i j : Nat} (h : i ≠ j) (v : HEntry) :
    hGet (l.set i v) j = hGet l j := by
  unfold hGet
  rw [List.getElem?_set_ne h]

theorem hGet_last_eq_getLast {l : List HEntry} (h : l ≠ []) :
    hGet l (l.length - 1) = l.getLast h := by
  have hlen : 0 < l.length := List.length_pos.mpr h
  rw [hGet_eq_getElem (by omega)]
  exact (List.getLast_eq_getElem _ h).symm

theorem insert_isHeap {l : List HEntry} (h : IsHeap l) (e : HEntry) :
    IsHeap (MinHeap.insert l e) := by
  unfold MinHeap.insert
  apply bubbleUp_isHeap (Or.inl (by simp))
  constructor
  · intro i hi hpos hne
    rw [List.length_append, List.length_singleton] at hi
    have hil : i < l.length := by omega
    have hpl : (i - 1) / 2 < l.length := by omega
    rw [hGet_append_left hil, hGet_append_left hpl]
    exact h i hil hpos
  · intro hpos c hc hc0 hcp
    rw [List.length_append, List.length_singleton] at hc
    omega

theorem insert_perm (l : List HEntry) (e : HEntry) :
    (MinHeap.insert l e).Perm (e :: l) := by
  unfold MinHeap.insert
  exact (bubbleUp_perm (by simp)).trans (List.perm_append_singleton e l)

theorem insert_length (l : List HEntry) (e : HEntry) :
    (MinHeap.insert l e).length = l.length + 1 := by
  unfold MinHeap.insert
  rw [bubbleUp_length]
  simp

theorem extractMin_isHeap {l : List HEntry} (h : IsHeap l) :
    IsHeap (MinHeap.extractMin l).2 := by
  unfold MinHeap.extractMin
  by_cases h0 : l.length = 0
  · rw [if_pos h0]
    exact h
  · rw [if_neg h0]
    by_cases h1 : l.length = 1
    · rw [if_pos h1]
      intro i hi
      simp at hi
    · rw [if_neg h1]
      apply bubbleDown_isHeap
      constructor
      · intro i hi hpos hpi
        have hlen : ((l.dropLast).set 0 (hGet l (l.length - 1))).length = l.length - 1 := by
          rw [List.length_set, List.length_dropLast]
        rw [hlen] at hi
        rw [hGet_set_ne (fun hq => hpi hq.symm) _, hGet_set_ne (show (0 : Nat) ≠ i by omega) _,
          hGet_dropLast (show (i - 1) / 2 < l.length - 1 by omega), hGet_dropLast hi]
        exact h i (by omega) hpos
      · intro hpos
        omega

theorem extractMin_fst {l : List HEntry} (h : l ≠ []) :
    (MinHeap.extractMin l).1 = some (hGet l 0) := by
  have h0 : l.length ≠ 0 := fun hc => h (List.length_eq_zero.mp hc)
  unfold MinHeap.extractMin
  rw [if_neg h0]
  by_cases h1 : l.length = 1
  · rw [if_pos h1]
  · rw [if_neg h1]

theorem extractMin_perm {l : List HEntry} (h : l ≠ []) :
    l.Perm (hGet l 0 :: (MinHeap.extractMin l).2) := by
  cases l with
  | nil => exact absurd rfl h
  | cons a t =>
    cases t with
    | nil =>
      unfold MinHeap.extractMin
      simp [hGet]
    | cons b t' =>
      unfold MinHeap.extractMin
      have h0 : (a :: b :: t').length ≠ 0 := by simp
      have h1 : (a :: b :: t').length ≠ 1 := by simp
      rw [if_neg h0, if_neg h1]
      have hg0 : hGet (a :: b :: t') 0 = a := by simp [hGet]
      have hbne : (b :: t') ≠ [] := by simp
      have hlast : hGet (a :: b :: t') ((a :: b :: t').length - 1) =
          (b :: t').getLast hbne := by
        have hx : hGet (a :: b :: t') ((a :: b :: t').length - 1) =
            hGet (b :: t') ((b :: t').length - 1) := by
          unfold hGet
          have heq : (a :: b :: t').length - 1 = ((b :: t').length - 1) + 1 := by simp
          rw [heq, List.getElem?_cons_succ]
        rw [hx, hGet_last_eq_getLast hbne]
      have hdl : ((a :: b :: t').dropLast).set 0
          (hGet (a :: b :: t') ((a :: b :: t').length - 1)) =
          (b :: t').getLast hbne :: (b :: t').dropLast := by
        rw [hlast]
        rfl
      rw [hg0, hdl]
      apply List.Perm.cons
      have h2 : (b :: t').Perm ((b :: t').getLast hbne :: (b :: t').dropLast) := by
        conv_lhs => rw [← List.dropLast_append_getLast hbne]
        exact List.perm_append_singleton _ _
      exact h2.trans (bubbleDown_perm _ 0).symm

theorem removeAt_isHeap {l : List HEntry} (h : IsHeap l) (idx : Nat) :
    IsHeap (MinHeap.removeAt l idx) := by
  unfold MinHeap.removeAt
  by_cases hge : idx ≥ l.length
  · rw [if_pos hge]
    exact h
  · rw [if_neg hge]
    push_neg at hge
    by_cases hlast : idx = l.length - 1
    · rw [if_pos hlast]
      intro i hi hpos
      rw [List.length_dropLast] at hi
      rw [hGet_dropLast hi, hGet_dropLast (by omega)]
      exact h i (by omega) hpos
    · rw [if_neg hlast]
      have hidx : idx < l.length - 1 := by omega
      have hlen' : ((hSwap l idx (l.length - 1)).dropLast).length = l.length - 1 := by
        rw [List.length_dropLast, hSwap_length]
      have hval : ∀ k, k < l.length - 1 →
          hGet ((hSwap l idx (l.length - 1)).dropLast) k =
            if k = idx then hGet l (l.length - 1) else hGet l k := by
        intro k hk
        rw [hGet_dropLast (by rw [hSwap_length]; exact hk)]
        by_cases hki : k = idx
        · subst hki
          rw [if_pos rfl]
          exact hGet_hSwap_fst hge
        · rw [if_neg hki]
          exact hGet_hSwap_other hki (by omega)
      by_cases hA : idx = 0 ∨
          (hGet ((hSwap l idx (l.length - 1)).dropLast) ((idx - 1) / 2)).2 ≤
            (hGet ((hSwap l idx (l.length - 1)).dropLast) idx).2
      · rw [bubbleUp_stop hA]
        apply bubbleDown_isHeap
        constructor
        · intro i hi hpos hpi
          rw [hlen'] at hi
          by_cases hii : i = idx
          · subst hii
            rcases hA with h0 | hle
            · omega
            · exact hle
          · rw [hval i hi, if_neg hii, hval _ (by omega), if_neg hpi]
            exact h i (by omega) hpos
        · intro hpos c hc hc0 hcp
          rw [hlen'] at hc
          have hcne : c ≠ idx := by omega
          have hq : (idx - 1) / 2 ≠ idx := by omega
          rw [hval c hc, if_neg hcne, hval _ (by omega), if_neg hq]
          have h1 := h idx hge hpos
          have h2 := h c (by omega) hc0
          rw [hcp] at h2
          exact le_trans h1 h2
      · push_neg at hA
        obtain ⟨hA0, hAlt⟩ := hA
        have hB : IsHeap (bubbleUp ((hSwap l idx (l.length - 1)).dropLast) idx) := by
          apply bubbleUp_isHeap (Or.inl (by rw [hlen']; exact hidx))
          constructor
          · intro i hi hpos hne
            rw [hlen'] at hi
            by_cases hpi : (i - 1) / 2 = idx
            · rw [hval i hi, if_neg hne, hpi, hval idx hidx, if_pos rfl]
              have hpbound : (idx - 1) / 2 < l.length - 1 := by omega
              have hw : (hGet l (l.length - 1)).2 < (hGet l ((idx - 1) / 2)).2 := by
                have e1 := hval idx hidx
                rw [if_pos rfl] at e1
                have e2 := hval ((idx - 1) / 2) hpbound
                rw [if_neg (by omega)] at e2
                rw [e1, e2] at hAlt
                exact hAlt
              have h1 := h idx hge (by omega)
              have h2 := h i (by omega) hpos
              rw [hpi] at h2
              exact le_of_lt (lt_of_lt_of_le hw (le_trans h1 h2))
            · rw [hval i hi, if_neg hne, hval _ (by omega), if_neg hpi]
              exact h i (by omega) hpos
          · intro hpos c hc hc0 hcp
            rw [hlen'] at hc
            have hcne : c ≠ idx := by omega
            have hq : (idx - 1) / 2 ≠ idx := by omega
            rw [hval c hc, if_neg hcne, hval _ (by omega), if_neg hq]
            have h1 := h idx hge hpos
            have h2 := h c (by omega) hc0
            rw [hcp] at h2
            exact le_trans h1 h2
        rw [bubbleDown_of_isHeap hB]
        exact hB

theorem removeAt_perm {l : List HEntry} {idx : Nat} (h : idx < l.length) :
    l.Perm (hGet l idx :: MinHeap.removeAt l idx) := by
  unfold MinHeap.removeAt
  rw [if_neg (by omega)]
  have hne : l ≠ [] := by
    intro h0
    subst h0
    simp at h
  by_cases he : idx = l.length - 1
  · rw [if_pos he, he, hGet_last_eq_getLast hne]
    conv_lhs => rw [← List.dropLast_append_getLast hne]
    exact List.perm_append_singleton _ _
  · rw [if_neg he]
    have hlt : idx < l.length - 1 := by omega
    have hswlen : (hSwap l idx (l.length - 1)).length = l.length := hSwap_length _ _ _
    have hsne : hSwap l idx (l.length - 1) ≠ [] := by
      intro h0
      have hz : l.length = 0 := by
        rw [← hswlen, h0]
        rfl
      omega
    have hslast : (hSwap l idx (l.length - 1)).getLast hsne = hGet l idx := by
      rw [← hGet_last_eq_getLast hsne, hswlen]
      exact hGet_hSwap_snd (by omega)
    have hsperm : (hSwap l idx (l.length - 1)).Perm l :=
      hSwap_perm h (by omega) (by omega)
    have h1 : l.Perm (hGet l idx :: (hSwap l idx (l.length - 1)).dropLast) := by
      refine hsperm.symm.trans ?_
      conv_lhs => rw [← List.dropLast_append_getLast hsne]
      rw [hslast]
      exact List.perm_append_singleton _ _
    refine h1.trans (List.Perm.cons _ ?_)
    have hup : (bubbleUp ((hSwap l idx (l.length - 1)).dropLast) idx).Perm
        ((hSwap l idx (l.length - 1)).dropLast) := by
      apply bubbleUp_perm
      rw [List.length_dropLast, hswlen]
      exact hlt
    exact ((bubbleDown_perm _ _).trans hup).symm

end HybridLRU

/-! ### Map (association list) lemmas -/

namespace HybridLRU

variable {T : Type}

theorem mapGet_eq_none_iff {m : List (String × T × Int)} {k : String} :
    mapGet m k = none ↔ k ∉ keysOf m := by
  unfold mapGet keysOf
  rw [Option.map_eq_none', List.find?_eq_none]
  constructor
  · intro h hmem
    obtain ⟨p, hp, hpk⟩ := List.mem_map.mp hmem
    have hx := h p hp
    simp only [decide_eq_true_eq] at hx
    exact hx hpk
  · intro h p hp
    simp only [decide_eq_true_eq]
    intro hpk
    exact h (List.mem_map.mpr ⟨p, hp, hpk⟩)

theorem mem_keys_of_mapGet_some {m : List (String × T × Int)} {k : String} {v : T} {e : Int}
    (h : mapGet m k = some (v, e)) : k ∈ keysOf m := by
  by_contra hc
  rw [← mapGet_eq_none_iff] at hc
  rw [h] at hc
  exact Option.noConfusion hc

theorem mapGet_some_mem {m : List (String × T × Int)} {k : String} {v : T} {e : Int}
    (h : mapGet m k = some (v, e)) : (k, v, e) ∈ m := by
  unfold mapGet at h
  cases hf : m.find? (fun p => p.1 = k) with
  | none =>
    rw [hf] at h
    simp at h
  | some p =>
    rw [hf] at h
    simp at h
    have hmem := List.mem_of_find?_eq_some hf
    have hpk : p.1 = k := by simpa using List.find?_some hf
    have : p = (k, v, e) := by
      obtain ⟨p1, p2⟩ := p
      simp at hpk h
      rw [hpk, h]
    rw [← this]
    exact hmem

theorem mapGet_some_of_mem {m : List (String × T × Int)} (hd : (keysOf m).Nodup)
    {k : String} {v : T} {e : Int} (h : (k, v, e) ∈ m) : mapGet m k = some (v, e) := by
  induction m with
  | nil => simp at h
  | cons p t ih =>
    have hd' : (keysOf t).Nodup := by
      rw [keysOf, List.map_cons] at hd
      exact hd.of_cons
    by_cases hpk : p.1 = k
    · unfold mapGet
      rw [List.find?_cons_of_pos _ (by simpa using hpk)]
      rcases List.mem_cons.mp h with heq | hmem
      · rw [← heq]
        rfl
      · exfalso
        rw [keysOf, List.map_cons] at hd
        have : k ∈ keysOf t := List.mem_map.mpr ⟨(k, v, e), hmem, rfl⟩
        rw [List.nodup_cons] at hd
        exact hd.1 (hpk ▸ this)
    · unfold mapGet
      rw [List.find?_cons_of_neg _ (by simpa using hpk)]
      rcases List.mem_cons.mp h with heq | hmem
      · exact absurd (congrArg Prod.fst heq).symm hpk
      · exact ih hd' hmem

theorem keysOf_mapDelete (m : List (String × T × Int)) (k : String) :
    keysOf (mapDelete m k) = (keysOf m).erase k := by
  induction m with
  | nil => rfl
  | cons p t ih =>
    by_cases hpk : p.1 = k
    · rw [show mapDelete (p :: t) k = t by
        unfold mapDelete
        rw [List.eraseP_cons_of_pos (by simpa using hpk)]]
      rw [show keysOf (p :: t) = p.1 :: keysOf t from rfl, hpk, List.erase_cons_head]
    · rw [show mapDelete (p :: t) k = p :: mapDelete t k by
        unfold mapDelete
        rw [List.eraseP_cons_of_neg (by simpa using hpk)]]
      rw [show keysOf (p :: mapDelete t k) = p.1 :: keysOf (mapDelete t k) from rfl,
        show keysOf (p :: t) = p.1 :: keysOf t from rfl,
        List.erase_cons_tail (by simpa using hpk), ih]

theorem mapGet_mapDelete_self {m : List (String × T × Int)} {k : String}
    (hd : (keysOf m).Nodup) : mapGet (mapDelete m k) k = none := by
  rw [mapGet_eq_none_iff, keysOf_mapDelete]
  intro hmem
  exact ((List.Nodup.mem_erase_iff hd).mp hmem).1 rfl

theorem mapGet_mapDelete_ne {m : List (String × T × Int)} {k k' : String} (h : k' ≠ k) :
    mapGet (mapDelete m k) k' = mapGet m k' := by
  induction m with
  | nil => rfl
  | cons p t ih =>
    by_cases hpk : p.1 = k
    · rw [show mapDelete (p :: t) k = t by
        unfold mapDelete
        rw [List.eraseP_cons_of_pos (by simpa using hpk)]]
      unfold mapGet
      rw [List.find?_cons_of_neg _ (by
        simp only [decide_eq_true_eq, hpk]
        exact fun hc => h hc.symm)]
    · rw [show mapDelete (p :: t) k = p :: mapDelete t k by
        unfold mapDelete
        rw [List.eraseP_cons_of_neg (by simpa using hpk)]]
      by_cases hpk' : p.1 = k'
      · unfold mapGet
        rw [List.find?_cons_of_pos _ (by simpa using hpk'),
          List.find?_cons_of_pos _ (by simpa using hpk')]
      · unfold mapGet
        rw [List.find?_cons_of_neg _ (by simpa using hpk'),
          List.find?_cons_of_neg _ (by simpa using hpk')]
        exact ih

theorem mapDelete_sublist (m : List (String × T × Int)) (k : String) :
    List.Sublist (mapDelete m k) m :=
  List.eraseP_sublist m

theorem keysOf_mapUpdate (m : List (String × T × Int)) (k : String) (v : T) (e : Int) :
    keysOf (mapUpdate m k v e) = keysOf m := by
  unfold keysOf mapUpdate
  rw [List.map_map]
  apply List.map_congr_left
  intro p _
  by_cases hpk : p.1 = k
  · simp [hpk]
  · simp [hpk]

theorem mapGet_mapUpdate_self {m : List (String × T × Int)} {k : String}
    (hmem : k ∈ keysOf m) (v : T) (e : Int) :
    mapGet (mapUpdate m k v e) k = some (v, e) := by
  induction m with
  | nil => simp [keysOf] at hmem
  | cons p t ih =>
    unfold mapUpdate
    rw [List.map_cons]
    by_cases hpk : p.1 = k
    · rw [if_pos hpk]
      unfold mapGet
      rw [List.find?_cons_of_pos _ (by simp)]
      rfl
    · rw [if_neg hpk]
      unfold mapGet
      rw [List.find?_cons_of_neg _ (by simpa using hpk)]
      apply ih
      rcases List.mem_cons.mp hmem with heq | hmem'
      · exact absurd heq.symm hpk
      · exact hmem'

theorem mapGet_mapUpdate_ne {m : List (String × T × Int)} {k k' : String} (h : k' ≠ k)
    (v : T) (e : Int) : mapGet (mapUpdate m k v e) k' = mapGet m k' := by
  induction m with
  | nil => rfl
  | cons p t ih =>
    unfold mapUpdate
    rw [List.map_cons]
    by_cases hpk : p.1 = k
    · rw [if_pos hpk]
      unfold mapGet
      rw [List.find?_cons_of_neg _ (by
          simp only [decide_eq_true_eq]
          exact fun hc => h hc.symm),
        List.find?_cons_of_neg _ (by
          simp only [decide_eq_true_eq, hpk]
          exact fun hc => h hc.symm)]
      exact ih
    · rw [if_neg hpk]
      by_cases hpk' : p.1 = k'
      · unfold mapGet
        rw [List.find?_cons_of_pos _ (by simpa using hpk'),
          List.find?_cons_of_pos _ (by simpa using hpk')]
      · unfold mapGet
        rw [List.find?_cons_of_neg _ (by simpa using hpk'),
          List.find?_cons_of_neg _ (by simpa using hpk')]
        exact ih

theorem mapGet_append_of_some {m l₂ : List (String × T × Int)} {k : String} {p : T × Int}
    (h : mapGet m k = some p) : mapGet (m ++ l₂) k = some p := by
  unfold mapGet at h ⊢
  rw [List.find?_append]
  cases hf : m.find? (fun q => q.1 = k) with
  | none => rw [hf] at h; simp at h
  | some q =>
    rw [hf] at h
    simpa using h

theorem mapGet_append_of_none {m l₂ : List (String × T × Int)} {k : String}
    (h : mapGet m k = none) : mapGet (m ++ l₂) k = mapGet l₂ k := by
  unfold mapGet at h ⊢
  rw [List.find?_append]
  cases hf : m.find? (fun q => q.1 = k) with
  | none => rfl
  | some q => rw [hf] at h; simp at h

end HybridLRU

/-! ### Cache-state lemmas -/

namespace HybridLRU

variable {T : Type}

theorem heapIdx_lt {l : List HEntry} {k : String} (h : k ∈ heapKeys l) :
    heapIdx l k < l.length := by
  unfold heapIdx
  obtain ⟨e, he, hek⟩ := List.mem_map.mp h
  exact List.findIdx_lt_length_of_exists ⟨e, he, by simpa using hek⟩

theorem hGet_heapIdx {l : List HEntry} {k : String} (h : k ∈ heapKeys l) :
    (hGet l (heapIdx l k)).1 = k := by
  have hlt := heapIdx_lt h
  rw [hGet_eq_getElem hlt]
  have := List.findIdx_getElem (w := hlt)
  simpa using this

theorem peek_some {l : List HEntry} {nd : HEntry} (h : MinHeap.peek l = some nd) :
    l ≠ [] ∧ hGet l 0 = nd := by
  unfold MinHeap.peek at h
  cases l with
  | nil => simp at h
  | cons a t =>
    simp at h
    subst h
    exact ⟨by simp, by simp [hGet]⟩

theorem peek_none {l : List HEntry} (h : MinHeap.peek l = none) : l = [] := by
  unfold MinHeap.peek at h
  cases l with
  | nil => rfl
  | cons a t => simp at h

theorem peek_of_ne_nil {l : List HEntry} (h : l ≠ []) :
    MinHeap.peek l = some (hGet l 0) := by
  cases l with
  | nil => exact absurd rfl h
  | cons a t => simp [MinHeap.peek, hGet]

theorem peek_match {s : CacheState T} {nd : HEntry} (hInv : Inv s)
    (hpk : MinHeap.peek s.heap = some nd) :
    ∃ v, mapGet s.entries nd.1 = some (v, nd.2) := by
  obtain ⟨hne, hroot⟩ := peek_some hpk
  have hndmem : nd ∈ s.heap := by
    rw [← hroot]
    exact hGet_mem (List.length_pos.mpr hne)
  have hm := hInv.2.2.2.1 nd hndmem
  cases hmg : mapGet s.entries nd.1 with
  | none => rw [hmg] at hm; simp at hm
  | some p =>
    rw [hmg] at hm
    simp at hm
    exact ⟨p.1, by rw [← hm]⟩

theorem peek_min {s : CacheState T} {nd : HEntry} (hInv : Inv s)
    (hpk : MinHeap.peek s.heap = some nd) :
    ∀ k v exp, mapGet s.entries k = some (v, exp) → nd.2 ≤ exp := by
  intro k v exp hk
  obtain ⟨hne, hroot⟩ := peek_some hpk
  have hkmem : k ∈ keysOf s.entries := mem_keys_of_mapGet_some hk
  have hkh : k ∈ heapKeys s.heap := hInv.2.2.1.mem_iff.mpr hkmem
  obtain ⟨e, he, hek⟩ := List.mem_map.mp hkh
  have hmm := hInv.2.2.2.1 e he
  rw [hek, hk] at hmm
  simp at hmm
  obtain ⟨i, hi, hei⟩ := List.getElem_of_mem he
  have hle := isHeap_root_le hInv.2.2.2.2.1 i hi
  rw [hroot, hGet_eq_getElem hi, hei] at hle
  omega

theorem peek_none_iff {s : CacheState T} (hInv : Inv s) :
    MinHeap.peek s.heap = none ↔ s.entries = [] := by
  have hkeylen : (heapKeys s.heap).length = s.heap.length := by
    rw [heapKeys, List.length_map]
  have hentlen : (keysOf s.entries).length = s.entries.length := by
    rw [keysOf, List.length_map]
  have hlen := hInv.2.2.1.length_eq
  constructor
  · intro h
    have hnil := peek_none h
    rw [hnil] at hlen
    have hz : (heapKeys ([] : List HEntry)).length = 0 := rfl
    apply List.length_eq_zero.mp
    omega
  · intro h
    rw [h] at hlen
    have hz : (keysOf ([] : List (String × T × Int))).length = 0 := rfl
    have h0 : s.heap.length = 0 := by omega
    rw [List.length_eq_zero.mp h0]
    rfl

/-- The state shape shared by every node removal (`removeNode`, the
`cleanExpired` loop body, `evict`): the map loses key `k`, the recency list
loses `k`, and the heap is replaced by any `h'` that is a heap and holds the
other nodes. -/
theorem removeShape_spec {s : CacheState T} {k : String} {v : T} {ex : Int}
    {h' : List HEntry} (hInv : Inv s) (hget : mapGet s.entries k = some (v, ex))
    (hperm : s.heap.Perm ((k, ex) :: h')) (hheap' : IsHeap h') :
    Inv { s with heap := h', order := s.order.erase k, entries := mapDelete s.entries k } ∧
    mapGet (mapDelete s.entries k) k = none ∧
    (∀ k', k' ≠ k → mapGet (mapDelete s.entries k) k' = mapGet s.entries k') ∧
    (mapDelete s.entries k).length + 1 = s.entries.length ∧
    k ∉ s.order.erase k ∧
    k ∉ heapKeys h' ∧
    s.entries.Perm ((k, v, ex) :: mapDelete s.entries k) := by
  obtain ⟨hnd, hord, hhk, hmatch, hheap, hsz, hmax⟩ := hInv
  have hmem : (k, v, ex) ∈ s.entries := mapGet_some_mem hget
  have hentperm : s.entries.Perm ((k, v, ex) :: mapDelete s.entries k) := by
    obtain ⟨a', l₁, l₂, hnl₁, hpa', hl, hep⟩ :=
      List.exists_of_eraseP (p := fun q => decide (q.1 = k)) hmem (by simp)
    have ha'1 : a'.1 = k := by simpa using hpa'
    have ha' : a' = (k, v, ex) := by
      have hmm : a' ∈ s.entries := by
        rw [hl]
        exact List.mem_append.mpr (Or.inr (List.mem_cons_self _ _))
      have h1 : mapGet s.entries a'.1 = some a'.2 := mapGet_some_of_mem hnd (by
        obtain ⟨a1, a2⟩ := a'
        exact hmm)
      rw [ha'1, hget] at h1
      obtain ⟨a1, a2⟩ := a'
      simp at ha'1 h1
      rw [ha'1, ← h1]
    rw [show mapDelete s.entries k = l₁ ++ l₂ from hep, hl, ha']
    exact List.perm_middle
  have hkeys' : keysOf (mapDelete s.entries k) = (keysOf s.entries).erase k :=
    keysOf_mapDelete _ _
  have hnd' : (keysOf (mapDelete s.entries k)).Nodup := by
    rw [hkeys']
    exact hnd.erase k
  have hkperm1 : (heapKeys s.heap).Perm (k :: heapKeys h') := hperm.map _
  have hkperm2 : (keysOf s.entries).Perm (k :: keysOf (mapDelete s.entries k)) :=
    hentperm.map _
  have hhk' : (heapKeys h').Perm (keysOf (mapDelete s.entries k)) :=
    (hkperm1.symm.trans (hhk.trans hkperm2)).cons_inv
  have hord' : (s.order.erase k).Perm (keysOf (mapDelete s.entries k)) := by
    rw [hkeys']
    exact hord.erase k
  have hordnd : s.order.Nodup := hord.nodup_iff.mpr hnd
  have hknotord : k ∉ s.order.erase k := fun hc =>
    ((List.Nodup.mem_erase_iff hordnd).mp hc).1 rfl
  have hkheap' : k ∉ heapKeys h' := by
    intro hc
    have hmem2 : k ∈ keysOf (mapDelete s.entries k) := hhk'.mem_iff.mp hc
    rw [hkeys'] at hmem2
    exact ((List.Nodup.mem_erase_iff hnd).mp hmem2).1 rfl
  have hmatch' : ∀ e ∈ h',
      (mapGet (mapDelete s.entries k) e.1).map (fun p => p.2) = some e.2 := by
    intro e he
    have hein : e ∈ s.heap := hperm.mem_iff.mpr (List.mem_cons_of_mem _ he)
    have hek : e.1 ≠ k := by
      intro hc
      apply hkheap'
      rw [← hc]
      exact List.mem_map_of_mem _ he
    rw [mapGet_mapDelete_ne hek]
    exact hmatch e hein
  have hlen : (mapDelete s.entries k).length + 1 = s.entries.length := by
    have := hentperm.length_eq
    simp at this
    omega
  exact ⟨⟨hnd', hord', hhk', hmatch', hheap', by simp; omega, hmax⟩,
    mapGet_mapDelete_self hnd, fun k' hk' => mapGet_mapDelete_ne hk', hlen,
    hknotord, hkheap', hentperm⟩

end HybridLRU

namespace HybridLRU

variable {T : Type}

theorem cleanStep_spec {s : CacheState T} {nd : HEntry} {v : T} (hInv : Inv s)
    (hpk : MinHeap.peek s.heap = some nd)
    (hmg : mapGet s.entries nd.1 = some (v, nd.2)) :
    Inv (cleanStep s nd.1) ∧
    mapGet (cleanStep s nd.1).entries nd.1 = none ∧
    (∀ k', k' ≠ nd.1 → mapGet (cleanStep s nd.1).entries k' = mapGet s.entries k') ∧
    (cleanStep s nd.1).entries.length + 1 = s.entries.length ∧
    (cleanStep s nd.1).heap.length + 1 = s.heap.length ∧
    s.entries.Perm ((nd.1, v, nd.2) :: (cleanStep s nd.1).entries) := by
  obtain ⟨hne, hroot⟩ := peek_some hpk
  have hperm : s.heap.Perm ((nd.1, nd.2) :: (MinHeap.extractMin s.heap).2) := by
    have h := extractMin_perm hne
    rw [hroot] at h
    exact h
  have hheap' : IsHeap (MinHeap.extractMin s.heap).2 := extractMin_isHeap hInv.2.2.2.2.1
  obtain ⟨h1, h2, h3, h4, h5, h6, h7⟩ := removeShape_spec hInv hmg hperm hheap'
  have hhl : (MinHeap.extractMin s.heap).2.length + 1 = s.heap.length := by
    have := hperm.length_eq
    simp at this
    omega
  exact ⟨h1, h2, h3, h4, hhl, h7⟩

theorem removeNode_spec {s : CacheState T} {k : String} {v : T} {ex : Int} (hInv : Inv s)
    (hget : mapGet s.entries k = some (v, ex)) :
    Inv (removeNode s k) ∧
    mapGet (removeNode s k).entries k = none ∧
    (∀ k', k' ≠ k → mapGet (removeNode s k).entries k' = mapGet s.entries k') ∧
    (removeNode s k).entries.length + 1 = s.entries.length ∧
    k ∉ (removeNode s k).order ∧
    k ∉ heapKeys (removeNode s k).heap ∧
    s.entries.Perm ((k, v, ex) :: (removeNode s k).entries) := by
  have hkmem : k ∈ keysOf s.entries := mem_keys_of_mapGet_some hget
  have hkh : k ∈ heapKeys s.heap := hInv.2.2.1.mem_iff.mpr hkmem
  have hidx := heapIdx_lt hkh
  have hkey := hGet_heapIdx hkh
  have hx : hGet s.heap (heapIdx s.heap k) = (k, ex) := by
    have hmem := hGet_mem hidx
    have hmm := hInv.2.2.2.1 _ hmem
    rw [hkey, hget] at hmm
    simp at hmm
    rw [Prod.ext_iff]
    exact ⟨hkey, hmm.symm⟩
  have hperm : s.heap.Perm ((k, ex) :: MinHeap.removeAt s.heap (heapIdx s.heap k)) := by
    have h := removeAt_perm hidx
    rw [hx] at h
    exact h
  have hheap' : IsHeap (MinHeap.removeAt s.heap (heapIdx s.heap k)) :=
    removeAt_isHeap hInv.2.2.2.2.1 _
  exact removeShape_spec hInv hget hperm hheap'

theorem evict_eq_cleanStep {s : CacheState T} {nd : HEntry}
    (hpk : MinHeap.peek s.heap = some nd) (now : Int) :
    evict s now = cleanStep s nd.1 := by
  simp only [evict, hpk]
  split <;> rfl

theorem evict_none {s : CacheState T} (hpk : MinHeap.peek s.heap = none) (now : Int) :
    evict s now = s := by
  simp only [evict, hpk]

theorem evict_spec {s : CacheState T} {nd : HEntry} {v : T} (hInv : Inv s)
    (hpk : MinHeap.peek s.heap = some nd) (hmg : mapGet s.entries nd.1 = some (v, nd.2))
    (now : Int) :
    Inv (evict s now) ∧
    mapGet (evict s now).entries nd.1 = none ∧
    (∀ k', k' ≠ nd.1 → mapGet (evict s now).entries k' = mapGet s.entries k') ∧
    (evict s now).entries.length + 1 = s.entries.length := by
  rw [evict_eq_cleanStep hpk]
  obtain ⟨h1, h2, h3, h4, _, _⟩ := cleanStep_spec hInv hpk hmg
  exact ⟨h1, h2, h3, h4⟩

theorem evict_fields (s : CacheState T) (now : Int) :
    (evict s now).maxSize = s.maxSize ∧ (evict s now).cleanupTimer = s.cleanupTimer ∧
    (evict s now).autoCleanup = s.autoCleanup := by
  cases hpk : MinHeap.peek s.heap with
  | none => rw [evict_none hpk]; exact ⟨rfl, rfl, rfl⟩
  | some nd => rw [evict_eq_cleanStep hpk]; exact ⟨rfl, rfl, rfl⟩

theorem evict_mapGet_none {s : CacheState T} {k : String} (hInv : Inv s)
    (h : mapGet s.entries k = none) (now : Int) :
    mapGet (evict s now).entries k = none := by
  cases hpk : MinHeap.peek s.heap with
  | none => rw [evict_none hpk]; exact h
  | some nd =>
    obtain ⟨v, hmg⟩ := peek_match hInv hpk
    obtain ⟨_, h2, h3, _⟩ := evict_spec hInv hpk hmg now
    by_cases hk : k = nd.1
    · rw [hk]; exact h2
    · rw [h3 k hk]; exact h

theorem cleanLoop_spec :
    ∀ (fuel : Nat) (s : CacheState T) (now : Int), Inv s → s.heap.length ≤ fuel →
      Inv (cleanLoop fuel s now).1 ∧
      (∀ k v exp, mapGet s.entries k = some (v, exp) →
        mapGet (cleanLoop fuel s now).1.entries k =
          if exp ≤ now then none else some (v, exp)) ∧
      (∀ k, mapGet s.entries k = none → mapGet (cleanLoop fuel s now).1.entries k = none) ∧
      (cleanLoop fuel s now).1.entries.length + (cleanLoop fuel s now).2 =
        s.entries.length ∧
      (cleanLoop fuel s now).2 =
        (s.entries.filter (fun p => decide (p.2.2 ≤ now))).length ∧
      (cleanLoop fuel s now).1.maxSize = s.maxSize ∧
      (cleanLoop fuel s now).1.cleanupTimer = s.cleanupTimer ∧
      (cleanLoop fuel s now).1.autoCleanup = s.autoCleanup := by
  intro fuel
  induction fuel with
  | zero =>
    intro s now hInv hf
    have hheapnil : s.heap = [] := List.length_eq_zero.mp (by omega)
    have hentnil : s.entries = [] := (peek_none_iff hInv).mp (by rw [hheapnil]; rfl)
    simp only [cleanLoop]
    refine ⟨hInv, ?_, fun k h => h, by simp, ?_, by trivial, by trivial, by trivial⟩
    · intro k v exp hk
      rw [hentnil] at hk
      simp [mapGet] at hk
    · rw [hentnil]
      rfl
  | succ n ih =>
    intro s now hInv hf
    cases hpk : MinHeap.peek s.heap with
    | none =>
      have hentnil : s.entries = [] := (peek_none_iff hInv).mp hpk
      simp only [cleanLoop, hpk]
      refine ⟨hInv, ?_, fun k h => h, by simp, ?_, by trivial, by trivial, by trivial⟩
      · intro k v exp hk
        rw [hentnil] at hk
        simp [mapGet] at hk
      · rw [hentnil]
        rfl
    | some nd =>
      by_cases hnow : nd.2 > now
      · simp only [cleanLoop, hpk, if_pos hnow]
        have hmin := peek_min hInv hpk
        refine ⟨hInv, ?_, fun k h => h, by simp, ?_, by trivial, by trivial, by trivial⟩
        · intro k v exp hk
          rw [if_neg (by have := hmin k v exp hk; omega)]
          exact hk
        · have hfnil : s.entries.filter (fun p => decide (p.2.2 ≤ now)) = [] := by
            rw [List.filter_eq_nil]
            intro p hp
            have hmg : mapGet s.entries p.1 = some p.2 := by
              have := mapGet_some_of_mem hInv.1 (show (p.1, p.2.1, p.2.2) ∈ s.entries by
                simpa using hp)
              simpa using this
            have := hmin p.1 p.2.1 p.2.2 (by simpa using hmg)
            simp only [decide_eq_true_eq]
            omega
          rw [hfnil]
          rfl
      · push_neg at hnow
        obtain ⟨v, hmg⟩ := peek_match hInv hpk
        obtain ⟨hInv', hself, hframe, hlen, hheaplen, hperm⟩ := cleanStep_spec hInv hpk hmg
        have hf' : (cleanStep s nd.1).heap.length ≤ n := by omega
        obtain ⟨ih1, ih2, ih3, ih4, ih5, ih6, ih7, ih8⟩ :=
          ih (cleanStep s nd.1) now hInv' hf'
        have hstep : cleanLoop (n + 1) s now =
            ((cleanLoop n (cleanStep s nd.1) now).1,
              (cleanLoop n (cleanStep s nd.1) now).2 + 1) := by
          simp only [cleanLoop, hpk]
          rw [if_neg (not_lt.mpr hnow)]
        rw [hstep]
        dsimp only
        refine ⟨ih1, ?_, ?_, by omega, ?_, by rw [ih6]; rfl, by rw [ih7]; rfl,
          by rw [ih8]; rfl⟩
        · intro k v' exp hk
          by_cases hkk : k = nd.1
          · subst hkk
            rw [hmg] at hk
            have hpe2 : nd.2 = exp := (Prod.ext_iff.mp (Option.some.inj hk)).2
            rw [if_pos (by omega)]
            exact ih3 _ hself
          · exact ih2 k v' exp (by rw [hframe k hkk]; exact hk)
        · intro k hk
          by_cases hkk : k = nd.1
          · subst hkk
            exact ih3 _ hself
          · exact ih3 k (by rw [hframe k hkk]; exact hk)
        · rw [ih5]
          have hfp := (hperm.filter (fun p => decide (p.2.2 ≤ now))).length_eq
          rw [hfp, List.filter_cons_of_pos (by simp; omega)]
          simp
  
theorem cleanExpired_spec {s : CacheState T} (now : Int) (hInv : Inv s) :
    Inv (cleanExpired s now).1 ∧
    (∀ k v exp, mapGet s.entries k = some (v, exp) →
      mapGet (cleanExpired s now).1.entries k = if exp ≤ now then none else some (v, exp)) ∧
    (∀ k, mapGet s.entries k = none → mapGet (cleanExpired s now).1.entries k = none) ∧
    (cleanExpired s now).1.entries.length + (cleanExpired s now).2 = s.entries.length ∧
    (cleanExpired s now).2 = (s.entries.filter (fun p => decide (p.2.2 ≤ now))).length ∧
    (cleanExpired s now).1.maxSize = s.maxSize ∧
    (cleanExpired s now).1.cleanupTimer = s.cleanupTimer ∧
    (cleanExpired s now).1.autoCleanup = s.autoCleanup :=
  cleanLoop_spec s.heap.length s now hInv (le_refl _)

end HybridLRU

namespace HybridLRU

variable {T : Type}

theorem mapGet_singleton_self (k : String) (v : T) (e : Int) :
    mapGet [(k, v, e)] k = some (v, e) := by
  unfold mapGet
  rw [List.find?_cons_of_pos _ (by simp)]
  rfl

theorem mapGet_singleton_ne {k k' : String} (h : k' ≠ k) (v : T) (e : Int) :
    mapGet [(k, v, e)] k' = none := by
  unfold mapGet
  rw [List.find?_cons_of_neg _ (by
    simp only [decide_eq_true_eq]
    exact fun hc => h hc.symm)]
  rfl

/-- Inserting a brand-new node (the tail of `set`'s new-key path, lines
212-216) preserves the invariant when there is room. -/
theorem insertNew_spec {s2 : CacheState T} {k : String} {v : T} {ex : Int}
    (hInv2 : Inv s2) (hnone : mapGet s2.entries k = none)
    (hroom : s2.entries.length < s2.maxSize) :
    Inv { s2 with entries := s2.entries ++ [(k, v, ex)],
                  heap := MinHeap.insert s2.heap (k, ex),
                  order := k :: s2.order } ∧
    mapGet (s2.entries ++ [(k, v, ex)]) k = some (v, ex) ∧
    (∀ k', k' ≠ k → mapGet (s2.entries ++ [(k, v, ex)]) k' = mapGet s2.entries k') := by
  obtain ⟨hnd, hord, hhk, hmatch, hheap, hsz, hmax⟩ := hInv2
  have hkmem : k ∉ keysOf s2.entries := mapGet_eq_none_iff.mp hnone
  have hkeys : keysOf (s2.entries ++ [(k, v, ex)]) = keysOf s2.entries ++ [k] := by
    unfold keysOf
    rw [List.map_append]
    rfl
  have hkperm : (keysOf s2.entries ++ [k]).Perm (k :: keysOf s2.entries) :=
    List.perm_append_singleton _ _
  have hnd' : (keysOf (s2.entries ++ [(k, v, ex)])).Nodup := by
    rw [hkeys]
    exact hkperm.nodup_iff.mpr (List.nodup_cons.mpr ⟨hkmem, hnd⟩)
  have hgetself : mapGet (s2.entries ++ [(k, v, ex)]) k = some (v, ex) := by
    rw [mapGet_append_of_none hnone]
    exact mapGet_singleton_self k v ex
  have hframe : ∀ k', k' ≠ k →
      mapGet (s2.entries ++ [(k, v, ex)]) k' = mapGet s2.entries k' := by
    intro k' hk'
    cases hmg : mapGet s2.entries k' with
    | none =>
      rw [mapGet_append_of_none hmg]
      exact mapGet_singleton_ne hk' v ex
    | some p => exact mapGet_append_of_some hmg
  refine ⟨⟨hnd', ?_, ?_, ?_, insert_isHeap hheap _, by simp; omega, hmax⟩,
    hgetself, hframe⟩
  · rw [hkeys]
    exact (hord.cons k).trans hkperm.symm
  · rw [hkeys]
    have h1 : (heapKeys (MinHeap.insert s2.heap (k, ex))).Perm (k :: heapKeys s2.heap) :=
      (insert_perm s2.heap (k, ex)).map _
    exact (h1.trans (hhk.cons k)).trans hkperm.symm
  · intro e he
    have hein := (insert_perm s2.heap (k, ex)).mem_iff.mp he
    rcases List.mem_cons.mp hein with heq | hmem
    · subst heq
      rw [hgetself]
      rfl
    · have hek : e.1 ≠ k := by
        intro hc
        apply hkmem
        rw [← hc]
        exact hhk.mem_iff.mp (List.mem_map_of_mem _ hmem)
      rw [hframe e.1 hek]
      exact hmatch e hmem

/-- `set` on an existing key (lines 190-202): update in place, reposition in
the heap, move to the recency head. -/
theorem setBody_update_spec {s : CacheState T} {k : String} {v : T} {ttl now : Int}
    {v₀ : T} {e₀ : Int} (hInv : Inv s) (hget : mapGet s.entries k = some (v₀, e₀)) :
    Inv (setBody s k v ttl now) ∧
    mapGet (setBody s k v ttl now).entries k = some (v, now + ttl) ∧
    (∀ k', k' ≠ k → mapGet (setBody s k v ttl now).entries k' = mapGet s.entries k') ∧
    (setBody s k v ttl now).order.head? = some k ∧
    (setBody s k v ttl now).entries.length = s.entries.length ∧
    (k, now + ttl) ∈ (setBody s k v ttl now).heap ∧
    (∀ e ∈ (setBody s k v ttl now).heap, e.1 ≠ k → e ∈ s.heap) := by
  obtain ⟨hnd, hord, hhk, hmatch, hheap, hsz, hmax⟩ := hInv
  have hbody : setBody s k v ttl now =
      { s with entries := mapUpdate s.entries k v (now + ttl),
               heap := MinHeap.insert (MinHeap.removeAt s.heap (heapIdx s.heap k))
                 (k, now + ttl),
               order := k :: s.order.erase k } := by
    unfold setBody
    rw [if_pos (by rw [hget]; rfl)]
  rw [hbody]
  have hkmem : k ∈ keysOf s.entries := mem_keys_of_mapGet_some hget
  have hkh : k ∈ heapKeys s.heap := hhk.mem_iff.mpr hkmem
  have hidx := heapIdx_lt hkh
  have hkey := hGet_heapIdx hkh
  have hx : hGet s.heap (heapIdx s.heap k) = (k, e₀) := by
    have hmem := hGet_mem hidx
    have hmm := hmatch _ hmem
    rw [hkey, hget] at hmm
    simp at hmm
    rw [Prod.ext_iff]
    exact ⟨hkey, hmm.symm⟩
  have hremperm : s.heap.Perm ((k, e₀) :: MinHeap.removeAt s.heap (heapIdx s.heap k)) := by
    have h := removeAt_perm hidx
    rw [hx] at h
    exact h
  have hhknodup : (heapKeys s.heap).Nodup := hhk.nodup_iff.mpr hnd
  have hkperm1 : (heapKeys s.heap).Perm
      (k :: heapKeys (MinHeap.removeAt s.heap (heapIdx s.heap k))) := hremperm.map _
  have hkh₁ : k ∉ heapKeys (MinHeap.removeAt s.heap (heapIdx s.heap k)) :=
    (List.nodup_cons.mp (hkperm1.nodup_iff.mp hhknodup)).1
  have hinsperm := insert_perm (MinHeap.removeAt s.heap (heapIdx s.heap k)) (k, now + ttl)
  have hkeyseq : keysOf (mapUpdate s.entries k v (now + ttl)) = keysOf s.entries :=
    keysOf_mapUpdate _ _ _ _
  have hkord : k ∈ s.order := hord.mem_iff.mpr hkmem
  have hgetself : mapGet (mapUpdate s.entries k v (now + ttl)) k = some (v, now + ttl) :=
    mapGet_mapUpdate_self hkmem _ _
  refine ⟨⟨by rw [hkeyseq]; exact hnd, ?_, ?_, ?_,
      insert_isHeap (removeAt_isHeap hheap _) _,
      by unfold mapUpdate; simp; omega, hmax⟩,
    hgetself, fun k' hk' => mapGet_mapUpdate_ne hk' _ _, rfl,
    by unfold mapUpdate; simp, ?_, ?_⟩
  · rw [hkeyseq]
    exact ((List.perm_cons_erase hkord).symm.trans hord)
  · rw [hkeyseq]
    have h1 : (heapKeys (MinHeap.insert (MinHeap.removeAt s.heap (heapIdx s.heap k))
        (k, now + ttl))).Perm
        (k :: heapKeys (MinHeap.removeAt s.heap (heapIdx s.heap k))) := hinsperm.map _
    exact (h1.trans hkperm1.symm).trans hhk
  · intro e he
    have hein := hinsperm.mem_iff.mp he
    rcases List.mem_cons.mp hein with heq | hmem
    · subst heq
      rw [hgetself]
      rfl
    · have hek : e.1 ≠ k := by
        intro hc
        have h1 : e.1 ∈ heapKeys (MinHeap.removeAt s.heap (heapIdx s.heap k)) :=
          List.mem_map_of_mem _ hmem
        rw [hc] at h1
        exact hkh₁ h1
      rw [mapGet_mapUpdate_ne hek]
      exact hmatch e (hremperm.mem_iff.mpr (List.mem_cons_of_mem _ hmem))
  · exact hinsperm.mem_iff.mpr (List.mem_cons_self _ _)
  · intro e he hek
    have hein := hinsperm.mem_iff.mp he
    rcases List.mem_cons.mp hein with heq | hmem
    · exact absurd (congrArg Prod.fst heq) hek
    · exact hremperm.mem_iff.mpr (List.mem_cons_of_mem _ hmem)

end HybridLRU

namespace HybridLRU

variable {T : Type}

/-- `set` on a new key (lines 204-216): sweep expired entries, evict if at
capacity, insert.  Partial specification sufficient for the claims. -/
theorem setBody_new_spec {s : CacheState T} {k : String} {v : T} {ttl now : Int}
    (hInv : Inv s) (hget : mapGet s.entries k = none) :
    Inv (setBody s k v ttl now) ∧
    mapGet (setBody s k v ttl now).entries k = some (v, now + ttl) ∧
    (setBody s k v ttl now).order.head? = some k ∧
    (setBody s k v ttl now).maxSize = s.maxSize ∧
    (setBody s k v ttl now).cleanupTimer = s.cleanupTimer ∧
    (setBody s k v ttl now).autoCleanup = s.autoCleanup := by
  obtain ⟨hc1, hc2, hc3, hc4, hc5, hc6, hc7, hc8⟩ := cleanExpired_spec now hInv
  have hnone1 : mapGet (cleanExpired s now).1.entries k = none := hc3 k hget
  have hInv2 : Inv (if (cleanExpired s now).1.entries.length ≥ (cleanExpired s now).1.maxSize
      then evict (cleanExpired s now).1 now else (cleanExpired s now).1) ∧
      mapGet (if (cleanExpired s now).1.entries.length ≥ (cleanExpired s now).1.maxSize
        then evict (cleanExpired s now).1 now else (cleanExpired s now).1).entries k = none ∧
      (if (cleanExpired s now).1.entries.length ≥ (cleanExpired s now).1.maxSize
        then evict (cleanExpired s now).1 now else (cleanExpired s now).1).entries.length <
        (if (cleanExpired s now).1.entries.length ≥ (cleanExpired s now).1.maxSize
          then evict (cleanExpired s now).1 now else (cleanExpired s now).1).maxSize ∧
      (if (cleanExpired s now).1.entries.length ≥ (cleanExpired s now).1.maxSize
        then evict (cleanExpired s now).1 now else (cleanExpired s now).1).maxSize =
        s.maxSize ∧
      (if (cleanExpired s now).1.entries.length ≥ (cleanExpired s now).1.maxSize
        then evict (cleanExpired s now).1 now else (cleanExpired s now).1).cleanupTimer =
        s.cleanupTimer ∧
      (if (cleanExpired s now).1.entries.length ≥ (cleanExpired s now).1.maxSize
        then evict (cleanExpired s now).1 now else (cleanExpired s now).1).autoCleanup =
        s.autoCleanup := by
    split
    · next hge =>
      -- at capacity: the heap is nonempty, the eviction removes one entry
      have hpos : 0 < (cleanExpired s now).1.entries.length := by
        have hm := hc1.2.2.2.2.2.2
        omega
      have hne : (cleanExpired s now).1.entries ≠ [] := by
        intro h0
        rw [h0] at hpos
        simp at hpos
      have hpk : ∃ nd, MinHeap.peek (cleanExpired s now).1.heap = some nd := by
        cases hx : MinHeap.peek (cleanExpired s now).1.heap with
        | none => exact absurd ((peek_none_iff hc1).mp hx) hne
        | some nd => exact ⟨nd, rfl⟩
      obtain ⟨nd, hpk⟩ := hpk
      obtain ⟨vv, hmg⟩ := peek_match hc1 hpk
      obtain ⟨he1, he2, he3, he4⟩ := evict_spec hc1 hpk hmg now
      obtain ⟨hf1, hf2, hf3⟩ := evict_fields (cleanExpired s now).1 now
      refine ⟨he1, ?_, ?_, by rw [hf1, hc6], by rw [hf2, hc7], by rw [hf3, hc8]⟩
      · by_cases hkk : k = nd.1
        · rw [hkk]
          exact he2
        · rw [he3 k hkk]
          exact hnone1
      · have hle := hc1.2.2.2.2.2.1
        rw [hf1]
        omega
    · next hlt =>
      push_neg at hlt
      exact ⟨hc1, hnone1, hlt, hc6, hc7, hc8⟩
  obtain ⟨hI2, hn2, hr2, hm2, ht2, ha2⟩ := hInv2
  have hbody : setBody s k v ttl now =
      { (if (cleanExpired s now).1.entries.length ≥ (cleanExpired s now).1.maxSize
          then evict (cleanExpired s now).1 now else (cleanExpired s now).1) with
        entries := (if (cleanExpired s now).1.entries.length ≥ (cleanExpired s now).1.maxSize
          then evict (cleanExpired s now).1 now else (cleanExpired s now).1).entries ++
            [(k, v, now + ttl)],
        heap := MinHeap.insert
          (if (cleanExpired s now).1.entries.length ≥ (cleanExpired s now).1.maxSize
            then evict (cleanExpired s now).1 now else (cleanExpired s now).1).heap
          (k, now + ttl),
        order := k :: (if (cleanExpired s now).1.entries.length ≥
            (cleanExpired s now).1.maxSize
          then evict (cleanExpired s now).1 now else (cleanExpired s now).1).order } := by
    unfold setBody
    rw [if_neg (by rw [hget]; simp)]
  obtain ⟨hI3, hg3, hfr3⟩ := insertNew_spec hI2 hn2 hr2
  rw [hbody]
  exact ⟨hI3, hg3, rfl, hm2, ht2, ha2⟩

theorem setBody_inv {s : CacheState T} (k : String) (v : T) (ttl now : Int)
    (hInv : Inv s) : Inv (setBody s k v ttl now) := by
  cases hmg : mapGet s.entries k with
  | none => exact (setBody_new_spec hInv hmg).1
  | some p =>
    obtain ⟨v₀, e₀⟩ := p
    exact (setBody_update_spec hInv hmg).1

theorem setOp_valid {s : CacheState T} {k : String} {v : T} {ttl now : Int}
    (hk : k.length ≠ 0) (httl : 0 < ttl) :
    setOp s (.str k) v (.num ttl) now = setBody s k v ttl now := by
  unfold setOp setE
  dsimp only
  rw [if_neg hk, if_neg (by simp [JSNum.isFinite, JSNum.leZero]; omega)]

theorem setOp_inv {s : CacheState T} (key : JSVal) (v : T) (ttlMs : JSNum) (now : Int)
    (hInv : Inv s) : Inv (setOp s key v ttlMs now) := by
  unfold setOp setE
  cases key with
  | nonString => exact hInv
  | str k =>
    dsimp only
    by_cases hk : k.length = 0
    · rw [if_pos hk]
      exact hInv
    · rw [if_neg hk]
      by_cases httl : ¬ ttlMs.isFinite = true ∨ ttlMs.leZero = true
      · rw [if_pos httl]
        exact hInv
      · rw [if_neg httl]
        cases ttlMs with
        | num ttl => exact setBody_inv k v ttl now hInv
        | posInf => exact hInv
        | negInf => exact hInv
        | nan => exact hInv

theorem get_eq_absent {s : CacheState T} {k : String} (now : Int)
    (hmg : mapGet s.entries k = none) : get s k now = (none, s) := by
  unfold get
  rw [hmg]

theorem get_eq_expired {s : CacheState T} {k : String} {v : T} {exp now : Int}
    (hmg : mapGet s.entries k = some (v, exp)) (hexp : now ≥ exp) :
    get s k now = (none, removeNode s k) := by
  unfold get
  rw [hmg]
  dsimp only
  rw [if_pos hexp]

theorem get_eq_live {s : CacheState T} {k : String} {v : T} {exp now : Int}
    (hmg : mapGet s.entries k = some (v, exp)) (hexp : ¬ now ≥ exp) :
    get s k now = (some v, { s with order := k :: s.order.erase k }) := by
  unfold get
  rw [hmg]
  dsimp only
  rw [if_neg hexp]

theorem get_inv {s : CacheState T} (k : String) (now : Int) (hInv : Inv s) :
    Inv (get s k now).2 := by
  cases hmg : mapGet s.entries k with
  | none =>
    rw [get_eq_absent now hmg]
    exact hInv
  | some p =>
    obtain ⟨v, exp⟩ := p
    by_cases hexp : now ≥ exp
    · rw [get_eq_expired hmg hexp]
      exact (removeNode_spec hInv hmg).1
    · rw [get_eq_live hmg hexp]
      obtain ⟨hnd, hord, hhk, hmatch, hheap, hsz, hmax⟩ := hInv
      have hkord : k ∈ s.order := hord.mem_iff.mpr (mem_keys_of_mapGet_some hmg)
      exact ⟨hnd, (List.perm_cons_erase hkord).symm.trans hord, hhk, hmatch, hheap,
        hsz, hmax⟩

theorem delete_inv {s : CacheState T} (k : String) (hInv : Inv s) :
    Inv (delete s k).2 := by
  unfold delete
  cases hmg : mapGet s.entries k with
  | none => exact hInv
  | some p =>
    obtain ⟨v, exp⟩ := p
    exact (removeNode_spec hInv hmg).1

theorem clear_eq (s : CacheState T) :
    clear s =
      { s with
        entries := [],
        order := [],
        heap := [],
        cleanupTimer := s.autoCleanup } := by
  unfold clear stopBackgroundCleanup startBackgroundCleanup
  dsimp only
  cases hauto : s.autoCleanup with
  | false => simp
  | true => simp

theorem destroy_eq (s : CacheState T) :
    destroy s =
      { s with
        entries := [],
        order := [],
        heap := [],
        cleanupTimer := s.autoCleanup } := by
  unfold destroy
  rw [clear_eq]
  rfl

theorem clear_inv {s : CacheState T} (hInv : Inv s) : Inv (clear s) := by
  rw [clear_eq]
  exact ⟨List.nodup_nil, List.Perm.refl _, List.Perm.refl _, by intro e he; simp at he,
    by intro i hi; simp at hi, by simp, hInv.2.2.2.2.2.2⟩

theorem applyOp_inv {s : CacheState T} (op : CacheOp T) (hInv : Inv s) :
    Inv (applyOp s op) := by
  cases op with
  | get k now => exact get_inv k now hInv
  | set key v ttlMs now => exact setOp_inv key v ttlMs now hInv
  | del k => exact delete_inv k hInv
  | clean now => exact (cleanExpired_spec now hInv).1
  | clear => exact clear_inv hInv

end HybridLRU

namespace HybridLRU

variable {T : Type}

theorem setBody_maxSize {s : CacheState T} (k : String) (v : T) (ttl now : Int)
    (hInv : Inv s) : (setBody s k v ttl now).maxSize = s.maxSize := by
  cases hmg : mapGet s.entries k with
  | none => exact (setBody_new_spec hInv hmg).2.2.2.1
  | some p =>
    unfold setBody
    rw [if_pos (by rw [hmg]; rfl)]

theorem setOp_maxSize {s : CacheState T} (key : JSVal) (v : T) (ttlMs : JSNum) (now : Int)
    (hInv : Inv s) : (setOp s key v ttlMs now).maxSize = s.maxSize := by
  unfold setOp setE
  cases key with
  | nonString => rfl
  | str k =>
    dsimp only
    by_cases hk : k.length = 0
    · rw [if_pos hk]
    · rw [if_neg hk]
      by_cases httl : ¬ ttlMs.isFinite = true ∨ ttlMs.leZero = true
      · rw [if_pos httl]
      · rw [if_neg httl]
        cases ttlMs with
        | num ttl => exact setBody_maxSize k v ttl now hInv
        | posInf => rfl
        | negInf => rfl
        | nan => rfl

theorem initCache_inv (T : Type) (m : Nat) (hm : 0 < m) (opts : Options) :
    Inv (initCache T m opts) :=
  ⟨List.nodup_nil, List.Perm.refl _, List.Perm.refl _,
   fun e he => absurd he (List.not_mem_nil e),
   fun i hi => absurd hi (Nat.not_lt_zero i), Nat.zero_le m, hm⟩

end HybridLRU

/-! ### The claims -/

namespace HybridLRU

/-- C1: capacity invariant — for every cache constructed with a valid (positive)
`maxSize` and every sequence of `set(key, value, ttlMs)` calls with any
arguments and any clock values, after each call `size() ≤ capacity`, the bound
fixed at construction.  (Quantifying over all call lists covers every prefix,
i.e. the size bound after each individual call; invalid calls throw before
mutating and leave the state unchanged.) -/
theorem claim_C1 {T : Type} (m : Nat) (hm : 0 < m) (opts : Options)
    (calls : List (JSVal × T × JSNum × Int)) :
    size (calls.foldl (fun s c => setOp s c.1 c.2.1 c.2.2.1 c.2.2.2)
      (initCache T m opts)) ≤ m := by
  have main : ∀ (cs : List (JSVal × T × JSNum × Int)) (s : CacheState T), Inv s →
      Inv (cs.foldl (fun s c => setOp s c.1 c.2.1 c.2.2.1 c.2.2.2) s) ∧
      (cs.foldl (fun s c => setOp s c.1 c.2.1 c.2.2.1 c.2.2.2) s).maxSize = s.maxSize := by
    intro cs
    induction cs with
    | nil => intro s h; exact ⟨h, rfl⟩
    | cons c rest ih =>
      intro s h
      have h1 : Inv (setOp s c.1 c.2.1 c.2.2.1 c.2.2.2) := setOp_inv _ _ _ _ h
      have h2 := setOp_maxSize c.1 c.2.1 c.2.2.1 c.2.2.2 h
      obtain ⟨ih1, ih2⟩ := ih _ h1
      exact ⟨ih1, by rw [List.foldl_cons, ih2, h2]⟩
  obtain ⟨hI, hM⟩ := main calls _ (initCache_inv T m hm opts)
  have hle := hI.2.2.2.2.2.1
  unfold size
  have hm' : (initCache T m opts).maxSize = m := rfl
  rw [hM, hm'] at hle
  exact hle

theorem claim_C1_witness :
    0 < 2 ∧
    size (([(JSVal.str "a", (5 : Nat), JSNum.num 100, (0 : Int)),
      (JSVal.str "b", 6, JSNum.num 100, 0),
      (JSVal.str "c", 7, JSNum.num 100, 0)]).foldl
      (fun s c => setOp s c.1 c.2.1 c.2.2.1 c.2.2.2) (initCache Nat 2 {})) ≤ 2 :=
  ⟨by decide, claim_C1 2 (by decide) {} _⟩

/-- C2: eviction policy — when `set` must make room, the victim is chosen by
expiry, not recency: the evicted node is the heap root, whose `expiresAt` is
minimal over all live entries (so if any entry is already expired the victim
is expired too), and exactly that key is removed.  Concretely, with capacity
3, after inserting `a` (ttl 10000), `b` (ttl 5000), `c` (ttl 15000) and then
`d` (ttl 20000) at clock 0, `b` is evicted and `a`, `c`, `d` remain
retrievable. -/
theorem claim_C2 :
    (∀ (T : Type) (s : CacheState T) (now : Int) (nd : HEntry), Inv s →
      MinHeap.peek s.heap = some nd →
      ((∃ e ∈ s.heap, e.2 ≤ now) → nd.2 ≤ now) ∧
      (∀ k v exp, mapGet s.entries k = some (v, exp) → nd.2 ≤ exp) ∧
      mapGet (evict s now).entries nd.1 = none ∧
      (∀ k, k ≠ nd.1 → mapGet (evict s now).entries k = mapGet s.entries k)) ∧
    ((get (setOp (setOp (setOp (setOp (initCache Nat 3 {})
        (.str "a") 1 (.num 10000) 0) (.str "b") 2 (.num 5000) 0)
        (.str "c") 3 (.num 15000) 0) (.str "d") 4 (.num 20000) 0) "b" 0).1 = none ∧
      (get (setOp (setOp (setOp (setOp (initCache Nat 3 {})
        (.str "a") 1 (.num 10000) 0) (.str "b") 2 (.num 5000) 0)
        (.str "c") 3 (.num 15000) 0) (.str "d") 4 (.num 20000) 0) "a" 0).1 = some 1 ∧
      (get (setOp (setOp (setOp (setOp (initCache Nat 3 {})
        (.str "a") 1 (.num 10000) 0) (.str "b") 2 (.num 5000) 0)
        (.str "c") 3 (.num 15000) 0) (.str "d") 4 (.num 20000) 0) "c" 0).1 = some 3 ∧
      (get (setOp (setOp (setOp (setOp (initCache Nat 3 {})
        (.str "a") 1 (.num 10000) 0) (.str "b") 2 (.num 5000) 0)
        (.str "c") 3 (.num 15000) 0) (.str "d") 4 (.num 20000) 0) "d" 0).1 = some 4 ∧
      size (setOp (setOp (setOp (setOp (initCache Nat 3 {})
        (.str "a") 1 (.num 10000) 0) (.str "b") 2 (.num 5000) 0)
        (.str "c") 3 (.num 15000) 0) (.str "d") 4 (.num 20000) 0) = 3) := by
  constructor
  · intro T s now nd hInv hpk
    have hmin := peek_min hInv hpk
    obtain ⟨v, hmg⟩ := peek_match hInv hpk
    obtain ⟨he1, he2, he3, he4⟩ := evict_spec hInv hpk hmg now
    refine ⟨?_, hmin, he2, he3⟩
    rintro ⟨e, he, hee⟩
    obtain ⟨hne, hroot⟩ := peek_some hpk
    obtain ⟨i, hi, hei⟩ := List.getElem_of_mem he
    have hle := isHeap_root_le hInv.2.2.2.2.1 i hi
    rw [hroot, hGet_eq_getElem hi, hei] at hle
    omega
  · exact ⟨by decide, by decide, by decide, by decide, by decide⟩

theorem claim_C2_witness :
    Inv (⟨2, [("x", 1, 5)], ["x"], [("x", 5)], .num 60000, false, false⟩ :
      CacheState Nat) ∧
    (∀ k v exp,
      mapGet (⟨2, [("x", 1, 5)], ["x"], [("x", 5)], .num 60000, false, false⟩ :
        CacheState Nat).entries k = some (v, exp) →
      (("x", 5) : HEntry).2 ≤ exp) :=
  ⟨by decide, (claim_C2.1 Nat
    ⟨2, [("x", 1, 5)], ["x"], [("x", 5)], .num 60000, false, false⟩ 6 ("x", 5)
    (by decide) (by decide)).2.1⟩

/-- C3: the claim states that `destroy()` permanently cancels the background
cleanup task, leaving the scheduled-task handle null and being an idempotent
operation.  The code violates this: `destroy()` (line 381-384) calls
`clear()`, and `clear()` (lines 370-379) restarts the background cleanup
whenever `autoCleanup` is enabled, so immediately after `destroy()` returns a
recurring cleanup task is scheduled again (the handle is non-null), and
calling `destroy()` twice leaves it scheduled as well. -/
theorem claim_C3 {T : Type} (s : CacheState T) (h : s.autoCleanup = true) :
    (destroy s).cleanupTimer = true ∧ (destroy (destroy s)).cleanupTimer = true := by
  constructor
  · rw [destroy_eq]
    exact h
  · rw [destroy_eq, destroy_eq]
    exact h

theorem claim_C3_witness :
    (initCache Nat 5 {}).autoCleanup = true ∧
    (destroy (initCache Nat 5 {})).cleanupTimer = true :=
  ⟨by decide, (claim_C3 (initCache Nat 5 {}) (by decide)).1⟩

/-- C4: lazy expiration — for a key present with `now ≥ expiresAt`, `get`
returns absent, removes the node from the index map, the recency list and the
expiry heap, decrements `size()` by exactly one, and leaves every other entry
untouched. -/
theorem claim_C4 {T : Type} (s : CacheState T) (k : String) (now : Int) (v : T)
    (exp : Int) (hInv : Inv s) (hget : mapGet s.entries k = some (v, exp))
    (hexp : now ≥ exp) :
    (get s k now).1 = none ∧
    mapGet (get s k now).2.entries k = none ∧
    k ∉ (get s k now).2.order ∧
    k ∉ heapKeys (get s k now).2.heap ∧
    size (get s k now).2 + 1 = size s ∧
    (∀ k', k' ≠ k → mapGet (get s k now).2.entries k' = mapGet s.entries k') := by
  rw [get_eq_expired hget hexp]
  obtain ⟨h1, h2, h3, h4, h5, h6, h7⟩ := removeNode_spec hInv hget
  exact ⟨rfl, h2, h5, h6, h4, h3⟩

theorem claim_C4_witness :
    (get (⟨1, [("a", 7, 5)], ["a"], [("a", 5)], .num 60000, false, false⟩ :
      CacheState Nat) "a" 10).1 = none ∧
    size (get (⟨1, [("a", 7, 5)], ["a"], [("a", 5)], .num 60000, false, false⟩ :
      CacheState Nat) "a" 10).2 + 1 =
      size (⟨1, [("a", 7, 5)], ["a"], [("a", 5)], .num 60000, false, false⟩ :
        CacheState Nat) :=
  ⟨(claim_C4 _ "a" 10 7 5 (by decide) (by decide) (by decide)).1,
   (claim_C4 _ "a" 10 7 5 (by decide) (by decide) (by decide)).2.2.2.2.1⟩

/-- C5: `cleanExpired(now)` removes exactly the entries with
`expiresAt ≤ now` and returns their count: expired entries become absent,
unexpired entries are untouched, every remaining entry has `expiresAt > now`,
and `size()` drops by exactly the returned count, which equals the number of
expired entries. -/
theorem claim_C5 {T : Type} (s : CacheState T) (now : Int) (hInv : Inv s) :
    Inv (cleanExpired s now).1 ∧
    (∀ k v exp, mapGet s.entries k = some (v, exp) → exp ≤ now →
      mapGet (cleanExpired s now).1.entries k = none) ∧
    (∀ k v exp, mapGet s.entries k = some (v, exp) → now < exp →
      mapGet (cleanExpired s now).1.entries k = some (v, exp)) ∧
    (∀ k v exp, mapGet (cleanExpired s now).1.entries k = some (v, exp) → now < exp) ∧
    size (cleanExpired s now).1 + (cleanExpired s now).2 = size s ∧
    (cleanExpired s now).2 = (s.entries.filter (fun p => decide (p.2.2 ≤ now))).length := by
  obtain ⟨h1, h2, h3, h4, h5, _, _, _⟩ := cleanExpired_spec now hInv
  refine ⟨h1, ?_, ?_, ?_, h4, h5⟩
  · intro k v exp hk hle
    rw [h2 k v exp hk, if_pos hle]
  · intro k v exp hk hgt
    rw [h2 k v exp hk, if_neg (by omega)]
  · intro k v exp hk
    by_contra hc
    push_neg at hc
    cases hmg : mapGet s.entries k with
    | none =>
      rw [h3 k hmg] at hk
      exact Option.noConfusion hk
    | some p =>
      obtain ⟨v', exp'⟩ := p
      have hx := h2 k v' exp' hmg
      by_cases hle : exp' ≤ now
      · rw [if_pos hle] at hx
        rw [hx] at hk
        exact Option.noConfusion hk
      · rw [if_neg hle] at hx
        rw [hx] at hk
        have := (Prod.ext_iff.mp (Option.some.inj hk)).2
        omega

theorem claim_C5_witness :
    Inv (cleanExpired (⟨3, [("a", 7, 5), ("b", 8, 20)], ["b", "a"],
      [("a", 5), ("b", 20)], .num 60000, false, false⟩ : CacheState Nat) 10).1 ∧
    size (cleanExpired (⟨3, [("a", 7, 5), ("b", 8, 20)], ["b", "a"],
      [("a", 5), ("b", 20)], .num 60000, false, false⟩ : CacheState Nat) 10).1 +
      (cleanExpired (⟨3, [("a", 7, 5), ("b", 8, 20)], ["b", "a"],
        [("a", 5), ("b", 20)], .num 60000, false, false⟩ : CacheState Nat) 10).2 =
      size (⟨3, [("a", 7, 5), ("b", 8, 20)], ["b", "a"],
        [("a", 5), ("b", 20)], .num 60000, false, false⟩ : CacheState Nat) :=
  ⟨(claim_C5 _ 10 (by decide)).1, (claim_C5 _ 10 (by decide)).2.2.2.2.1⟩

/-- C6: min-heap invariant — `insert`, `remove` (at a tracked position) and
`extractMin` each preserve the ordering `heap[i].expiresAt ≥
heap[parent(i)].expiresAt`, and consequently, on any consistent cache state
(which every operation preserves), `peek()` is absent exactly on the empty
cache and otherwise returns a live entry whose `expiresAt` is the true
minimum over all live entries. -/
theorem claim_C6 :
    (∀ (l : List HEntry) (e : HEntry), IsHeap l → IsHeap (MinHeap.insert l e)) ∧
    (∀ (l : List HEntry) (idx : Nat), IsHeap l → IsHeap (MinHeap.removeAt l idx)) ∧
    (∀ l : List HEntry, IsHeap l → IsHeap (MinHeap.extractMin l).2) ∧
    (∀ (T : Type) (s : CacheState T), Inv s →
      ((MinHeap.peek s.heap = none ↔ s.entries = []) ∧
       (∀ nd, MinHeap.peek s.heap = some nd →
         (∃ v, mapGet s.entries nd.1 = some (v, nd.2)) ∧
         (∀ k v exp, mapGet s.entries k = some (v, exp) → nd.2 ≤ exp)))) :=
  ⟨fun _ e h => insert_isHeap h e, fun _ idx h => removeAt_isHeap h idx,
   fun _ h => extractMin_isHeap h,
   fun _ s hInv => ⟨peek_none_iff hInv,
     fun nd hpk => ⟨peek_match hInv hpk, peek_min hInv hpk⟩⟩⟩

theorem claim_C6_witness :
    IsHeap (MinHeap.insert [("a", 3), ("b", 7)] ("c", 1)) :=
  claim_C6.1 _ _ (by decide)

/-- C7: cross-structure consistency — every public operation (`get`, `set`,
`delete`, `cleanExpired`, `clear`) preserves the invariant `Inv`: the recency
list holds exactly the keys of the index map (same set, same cardinality,
no duplicates), and the expiry heap holds exactly those same nodes (key and
current `expiresAt`), kept min-ordered and within capacity. -/
theorem claim_C7 {T : Type} (s : CacheState T) (op : CacheOp T) (h : Inv s) :
    Inv (applyOp s op) :=
  applyOp_inv op h

theorem claim_C7_witness :
    Inv (applyOp (initCache Nat 2 {}) (CacheOp.set (.str "a") 5 (.num 100) 0)) :=
  claim_C7 (initCache Nat 2 {}) (CacheOp.set (.str "a") 5 (.num 100) 0) (by decide)

/-- C8: the claim states that unlinking an already-detached entry (prev and
next both null, not the head) is an idempotent no-op for every list state.
The code violates this: in `removeFromList` (lines 349-364), a detached
node's null `prev` makes the `else` branch assign `head = node.next = null`,
and its null `next` assigns `tail = node.prev = null`, so on a non-empty
list (here: the one-node list containing node 0) unlinking the detached node
1 clears both `head` and `tail`, losing the list. -/
theorem claim_C8 :
    (DLL.oneNodeList.prev 1 = none ∧ DLL.oneNodeList.next 1 = none ∧
      DLL.oneNodeList.head ≠ some 1) ∧
    DLL.oneNodeList.head = some 0 ∧ DLL.oneNodeList.tail = some 0 ∧
    (DLL.removeFromList DLL.oneNodeList 1).head = none ∧
    (DLL.removeFromList DLL.oneNodeList 1).tail = none :=
  ⟨⟨rfl, rfl, by decide⟩, rfl, rfl, rfl, rfl⟩

/-- C10: `set` on an existing key updates only that entry — with valid
arguments it replaces the value, sets `expiresAt = now + ttl`, repositions
the node in the expiry heap (the new node is in the heap and every other heap
node is an old one), moves the key to the recency head, keeps `size()`
unchanged, and leaves every other entry's data untouched. -/
theorem claim_C10 {T : Type} (s : CacheState T) (k : String) (v : T) (ttl now : Int)
    (v₀ : T) (e₀ : Int) (hInv : Inv s) (hget : mapGet s.entries k = some (v₀, e₀))
    (hk : k.length ≠ 0) (httl : 0 < ttl) :
    Inv (setOp s (.str k) v (.num ttl) now) ∧
    mapGet (setOp s (.str k) v (.num ttl) now).entries k = some (v, now + ttl) ∧
    (∀ k', k' ≠ k →
      mapGet (setOp s (.str k) v (.num ttl) now).entries k' = mapGet s.entries k') ∧
    (setOp s (.str k) v (.num ttl) now).order.head? = some k ∧
    size (setOp s (.str k) v (.num ttl) now) = size s ∧
    (k, now + ttl) ∈ (setOp s (.str k) v (.num ttl) now).heap ∧
    (∀ e ∈ (setOp s (.str k) v (.num ttl) now).heap, e.1 ≠ k → e ∈ s.heap) := by
  rw [setOp_valid hk httl]
  obtain ⟨h1, h2, h3, h4, h5, h6, h7⟩ := setBody_update_spec hInv hget
  exact ⟨h1, h2, h3, h4, h5, h6, h7⟩

theorem claim_C10_witness :
    mapGet (setOp (⟨2, [("a", 7, 5)], ["a"], [("a", 5)], .num 60000, false, false⟩ :
      CacheState Nat) (.str "a") 9 (.num 100) 2).entries "a" = some (9, 102) ∧
    size (setOp (⟨2, [("a", 7, 5)], ["a"], [("a", 5)], .num 60000, false, false⟩ :
      CacheState Nat) (.str "a") 9 (.num 100) 2) =
      size (⟨2, [("a", 7, 5)], ["a"], [("a", 5)], .num 60000, false, false⟩ :
        CacheState Nat) :=
  ⟨(claim_C10 _ "a" 9 100 2 7 5 (by decide) (by decide) (by decide) (by decide)).2.1,
   (claim_C10 _ "a" 9 100 2 7 5 (by decide) (by decide) (by decide)
     (by decide)).2.2.2.2.1⟩

end HybridLRU

namespace HybridLRU

/-- C9 counterexample: the claim says construction raises an error whenever
the cleanup interval is non-positive, but the constructor accepts
`cleanupInterval = -5` (a non-positive value, as `leZero` shows) and returns
a cache, raising nothing. -/
theorem claim_C9_counterexample :
    (JSNum.num (-5)).leZero = true ∧
    ctor Nat (.num 1) { cleanupInterval := some (.num (-5)) } =
      .ok (initCache Nat 1 { cleanupInterval := some (.num (-5)) }) :=
  ⟨by decide, rfl⟩

/-- C9 (amended): construction raises `InvalidConfiguration` if and only if
`maxSize` is non-positive or non-finite — the cleanup interval is not
validated at construction, and TTL is validated per `set` call, not at
construction.  `set` raises `InvalidKey` if and only if the key is not a
string or is empty, and (for a valid key) raises the TTL error if and only
if `ttlMs` is non-positive or non-finite.  Errors are raised synchronously
by pure computation (hence deterministically), and a failing `set` leaves
the cache state unchanged. -/
theorem claim_C9 :
    (∀ (T : Type) (m : JSNum) (opts : Options),
      (∃ msg, ctor T m opts = .error msg) ↔ (m.isFinite = false ∨ m.leZero = true)) ∧
    (∀ (T : Type) (s : CacheState T) (v : T) (ttlMs : JSNum) (now : Int),
      setE s .nonString v ttlMs now = .error "key must be a non-empty string") ∧
    (∀ (T : Type) (s : CacheState T) (v : T) (ttlMs : JSNum) (now : Int) (k : String),
      setE s (.str k) v ttlMs now = .error "key must be a non-empty string" ↔
        k.length = 0) ∧
    (∀ (T : Type) (s : CacheState T) (v : T) (ttlMs : JSNum) (now : Int) (k : String),
      k.length ≠ 0 →
      (setE s (.str k) v ttlMs now = .error "ttlMs must be a positive finite number" ↔
        (ttlMs.isFinite = false ∨ ttlMs.leZero = true))) ∧
    (∀ (T : Type) (s : CacheState T) (key : JSVal) (v : T) (ttlMs : JSNum) (now : Int)
      (msg : String), setE s key v ttlMs now = .error msg →
      setOp s key v ttlMs now = s) := by
  refine ⟨?_, ?_, ?_, ?_, ?_⟩
  · intro T m opts
    unfold ctor
    by_cases hbad : ¬ m.isFinite = true ∨ m.leZero = true
    · rw [if_pos hbad]
      simp only [Bool.not_eq_true] at hbad
      exact iff_of_true ⟨_, rfl⟩ hbad
    · rw [if_neg hbad]
      push_neg at hbad
      obtain ⟨hfin, hle⟩ := hbad
      cases m with
      | num mv =>
        apply iff_of_false
        · rintro ⟨msg, hmsg⟩
          exact Except.noConfusion hmsg
        · rintro (h | h)
          · rw [hfin] at h
            exact Bool.noConfusion h
          · exact hle h
      | posInf => simp [JSNum.isFinite] at hfin
      | negInf => simp [JSNum.isFinite] at hfin
      | nan => simp [JSNum.isFinite] at hfin
  · intro T s v ttlMs now
    rfl
  · intro T s v ttlMs now k
    unfold setE
    dsimp only
    by_cases hk : k.length = 0
    · rw [if_pos hk]
      exact iff_of_true rfl hk
    · rw [if_neg hk]
      apply iff_of_false ?_ hk
      by_cases httl : ¬ ttlMs.isFinite = true ∨ ttlMs.leZero = true
      · rw [if_pos httl]
        intro hcontra
        exact absurd (Except.error.inj hcontra) (by decide)
      · rw [if_neg httl]
        cases ttlMs <;> intro hcontra <;> exact Except.noConfusion hcontra
  · intro T s v ttlMs now k hk
    unfold setE
    dsimp only
    rw [if_neg hk]
    by_cases httl : ¬ ttlMs.isFinite = true ∨ ttlMs.leZero = true
    · rw [if_pos httl]
      simp only [Bool.not_eq_true] at httl
      exact iff_of_true rfl httl
    · rw [if_neg httl]
      push_neg at httl
      obtain ⟨hfin, hle⟩ := httl
      apply iff_of_false
      · cases ttlMs <;> intro hcontra <;> exact Except.noConfusion hcontra
      · rintro (h | h)
        · rw [hfin] at h
          exact Bool.noConfusion h
        · exact hle h
  · intro T s key v ttlMs now msg hmsg
    unfold setOp
    rw [hmsg]

theorem claim_C9_witness :
    ("ab".length ≠ 0) ∧
    (setE (initCache Nat 2 {}) (.str "ab") 5 JSNum.nan 0 =
        .error "ttlMs must be a positive finite number" ↔
      (JSNum.nan.isFinite = false ∨ JSNum.nan.leZero = true)) :=
  ⟨by decide, claim_C9.2.2.2.1 Nat (initCache Nat 2 {}) 5 JSNum.nan 0 "ab" (by decide)⟩

end HybridLRU
